import Mathlib

/-!
Shallow embedding of the transaction dispatch queue of `src/src/lib/auth.ts`
(class `TransactionQueue`).  Timestamps are naturals (milliseconds).  Job ids
are modelled as successive values of a counter: `generateJobId` in the source
produces a fresh opaque string from the clock and a random suffix, and only
freshness/uniqueness of ids is ever used.  JS `Map`s are insertion-ordered
association lists.  The `async` body of `processJob` is split into its
synchronous start (`processJobStart`: in-flight-set insert, status change and
attempts increment, which run before the first `await`) and a later outcome
step (`completeJob` / `failJob`) performed when the executor promise settles.
-/

namespace W3Faucet

/-! ### String helpers (JS `String.prototype.includes` / `toLowerCase`) -/

def listStartsWith : List Char → List Char → Bool
  | _, [] => true
  | [], _ :: _ => false
  | a :: as, b :: bs => a == b && listStartsWith as bs

def listContainsSub : List Char → List Char → Bool
  | [], needle => needle.isEmpty
  | a :: t, needle => listStartsWith (a :: t) needle || listContainsSub t needle

def containsSubStr (hay needle : String) : Bool :=
  listContainsSub hay.data needle.data

def lowerStr (s : String) : String :=
  String.mk (s.data.map Char.toLower)

/-! ### Data model (`QueueJob`, queue state) -/

inductive JobType where
  | ETH_CLAIM
  | TOKEN_CLAIM
  deriving DecidableEq

inductive JobStatus where
  | pending
  | processing
  | completed
  | failed
  | retrying
  deriving DecidableEq

structure JobData where
  address : String
  tokenAddress : Option String
  amount : Option String
  userAgent : Option String
  timestamp : Nat
  deriving DecidableEq

structure QueueJob where
  id : Nat
  type : JobType
  data : JobData
  status : JobStatus
  priority : Int
  attempts : Nat
  maxAttempts : Nat
  createdAt : Nat
  updatedAt : Nat
  processedAt : Option Nat
  completedAt : Option Nat
  error : Option String
  transactionHash : Option String
  estimatedProcessingTime : Option Nat
  position : Option Nat
  deriving DecidableEq

abbrev JobMap := List (Nat × QueueJob)

structure QueueState where
  jobs : JobMap
  pendingQueue : List Nat
  processingJobs : List Nat
  deadLetterQueue : JobMap
  nextId : Nat
  now : Nat
  deriving DecidableEq

def maxConcurrentJobs : Nat := 3

def processingDelayMs : Nat := 2000

def deadLetterCapacity : Nat := 100

def retentionMs : Nat := 24 * 60 * 60 * 1000

/-! ### Association-list operations mirroring JS `Map` -/

def mlookup : JobMap → Nat → Option QueueJob
  | [], _ => none
  | p :: rest, k => if p.1 = k then some p.2 else mlookup rest k

def updateJob (m : JobMap) (id : Nat) (f : QueueJob → QueueJob) : JobMap :=
  m.map (fun p => if p.1 = id then (p.1, f p.2) else p)

def mapSet (m : JobMap) (k : Nat) (v : QueueJob) : JobMap :=
  if (mlookup m k).isSome then updateJob m k (fun _ => v) else m ++ [(k, v)]

def mapDelete (m : JobMap) (k : Nat) : JobMap :=
  m.filter (fun p => decide (p.1 ≠ k))

theorem mlookup_nil (k : Nat) : mlookup [] k = none := rfl

theorem mlookup_cons (p : Nat × QueueJob) (rest : JobMap) (k : Nat) :
    mlookup (p :: rest) k = if p.1 = k then some p.2 else mlookup rest k := rfl

theorem mlookup_updateJob (m : JobMap) (id : Nat) (f : QueueJob → QueueJob) (k : Nat) :
    mlookup (updateJob m id f) k =
      if id = k then (mlookup m k).map f else mlookup m k := by
  induction m with
  | nil => by_cases h : id = k <;> simp [updateJob, mlookup, h]
  | cons p rest ih =>
    obtain ⟨pk, pv⟩ := p
    by_cases h1 : pk = id
    · subst h1
      by_cases h2 : pk = k
      · subst h2
        simp [updateJob, mlookup]
      · simp [updateJob, mlookup, h2] at ih ⊢
        exact ih
    · by_cases h2 : pk = k
      · subst h2
        have h3 : ¬ id = pk := fun hc => h1 hc.symm
        simp [updateJob, mlookup, h1, h3]
      · simp [updateJob, mlookup, h1, h2] at ih ⊢
        exact ih

theorem keys_updateJob (m : JobMap) (id : Nat) (f : QueueJob → QueueJob) :
    (updateJob m id f).map Prod.fst = m.map Prod.fst := by
  induction m with
  | nil => rfl
  | cons p rest ih =>
    by_cases h : p.1 = id <;> simp [updateJob, h] at ih ⊢ <;> exact ih

theorem mlookup_append_of_some (m1 m2 : JobMap) (k : Nat) (v : QueueJob)
    (h : mlookup m1 k = some v) : mlookup (m1 ++ m2) k = some v := by
  induction m1 with
  | nil => simp [mlookup] at h
  | cons p rest ih =>
    by_cases hp : p.1 = k
    · simp [mlookup, hp] at h ⊢
      exact h
    · simp [mlookup, hp] at h ⊢
      exact ih h

theorem mlookup_append_of_none (m1 m2 : JobMap) (k : Nat)
    (h : mlookup m1 k = none) : mlookup (m1 ++ m2) k = mlookup m2 k := by
  induction m1 with
  | nil => simp
  | cons p rest ih =>
    by_cases hp : p.1 = k
    · simp [mlookup, hp] at h
    · simp [mlookup, hp] at h ⊢
      exact ih h

theorem mlookup_eq_none_iff (m : JobMap) (k : Nat) :
    mlookup m k = none ↔ k ∉ m.map Prod.fst := by
  induction m with
  | nil => simp [mlookup]
  | cons p rest ih =>
    obtain ⟨pk, pv⟩ := p
    by_cases hp : pk = k
    · subst hp
      simp [mlookup]
    · rw [List.map_cons, List.mem_cons, mlookup_cons, if_neg hp, ih]
      constructor
      · intro h hc
        rcases hc with hc | hc
        · exact hp hc.symm
        · exact h hc
      · intro h hc
        exact h (Or.inr hc)

theorem mlookup_mem (m : JobMap) (k : Nat) (v : QueueJob)
    (h : mlookup m k = some v) : (k, v) ∈ m := by
  induction m with
  | nil => simp [mlookup] at h
  | cons p rest ih =>
    obtain ⟨pk, pv⟩ := p
    by_cases hp : pk = k
    · subst hp
      simp [mlookup] at h
      subst h
      exact List.mem_cons_self _ _
    · simp [mlookup, hp] at h
      exact List.mem_cons_of_mem _ (ih h)

theorem mlookup_isSome_iff (m : JobMap) (k : Nat) :
    (mlookup m k).isSome ↔ k ∈ m.map Prod.fst := by
  cases h : mlookup m k with
  | none =>
    simp [(mlookup_eq_none_iff m k).mp h]
  | some v =>
    simp only [Option.isSome_some, true_iff]
    exact List.mem_map.mpr ⟨(k, v), mlookup_mem m k v h, rfl⟩

theorem mem_mlookup_of_nodup (m : JobMap) (k : Nat) (v : QueueJob)
    (hnd : (m.map Prod.fst).Nodup) (h : (k, v) ∈ m) : mlookup m k = some v := by
  induction m with
  | nil => simp at h
  | cons p rest ih =>
    obtain ⟨pk, pv⟩ := p
    rw [List.map_cons, List.nodup_cons] at hnd
    rcases List.mem_cons.mp h with h1 | h1
    · rw [← h1]
      simp [mlookup]
    · have hk : k ∈ rest.map Prod.fst := List.mem_map.mpr ⟨(k, v), h1, rfl⟩
      have hp : ¬ pk = k := fun hc => hnd.1 (by rw [hc]; exact hk)
      rw [mlookup_cons, if_neg hp]
      exact ih hnd.2 h1

theorem keys_filter_sublist (pred : Nat × QueueJob → Bool) (m : JobMap) :
    ((m.filter pred).map Prod.fst).Sublist (m.map Prod.fst) :=
  (List.filter_sublist m).map Prod.fst

theorem mlookup_filter (pred : Nat × QueueJob → Bool) (m : JobMap) (k : Nat)
    (hnd : (m.map Prod.fst).Nodup) :
    mlookup (m.filter pred) k =
      match mlookup m k with
      | some v => if pred (k, v) then some v else none
      | none => none := by
  induction m with
  | nil => simp [mlookup]
  | cons p rest ih =>
    obtain ⟨pk, pv⟩ := p
    rw [List.map_cons, List.nodup_cons] at hnd
    by_cases hp : pk = k
    · subst hp
      have hrestf : mlookup (rest.filter pred) pk = none := by
        rw [mlookup_eq_none_iff]
        intro hc
        exact hnd.1 ((keys_filter_sublist pred rest).subset hc)
      by_cases hpp : pred (pk, pv) = true
      · simp [List.filter_cons, hpp, mlookup]
      · simp [List.filter_cons, hpp, mlookup, hrestf]
    · by_cases hpp : pred (pk, pv) = true
      · rw [List.filter_cons, if_pos hpp, mlookup_cons, if_neg hp, mlookup_cons, if_neg hp]
        exact ih hnd.2
      · rw [List.filter_cons, if_neg hpp, mlookup_cons, if_neg hp]
        exact ih hnd.2

theorem mapSet_of_none (m : JobMap) (k : Nat) (v : QueueJob)
    (h : mlookup m k = none) : mapSet m k v = m ++ [(k, v)] := by
  simp [mapSet, h]

theorem mapDelete_cons_head (p : Nat × QueueJob) (rest : JobMap)
    (hnd : (((p :: rest) : JobMap).map Prod.fst).Nodup) :
    mapDelete (p :: rest) p.1 = rest := by
  rw [List.map_cons, List.nodup_cons] at hnd
  simp only [mapDelete, List.filter_cons]
  have h1 : (decide (p.1 ≠ p.1)) = false := by simp
  rw [h1]
  simp only [Bool.false_eq_true, if_false]
  apply List.filter_eq_self.mpr
  intro q hq
  have hqk : q.1 ∈ rest.map Prod.fst := List.mem_map.mpr ⟨q, hq, rfl⟩
  simp only [decide_eq_true_eq]
  intro hc
  exact hnd.1 (hc ▸ hqk)

/-! ### Queue operations, each translated from the corresponding method of
`TransactionQueue` in `src/src/lib/auth.ts` -/

/-- The update done to every pending job by `updateQueuePositions` at array
index `n - 1` (so `n` is the stored 1-based position):
`job.position = index + 1; job.estimatedProcessingTime = (index + 1) * (processingDelay / 1000)`. -/
def setPos (n : Nat) (j : QueueJob) : QueueJob :=
  { j with position := some n, estimatedProcessingTime := some (n * (processingDelayMs / 1000)) }

def updatePositionsFrom : JobMap → List Nat → Nat → JobMap
  | m, [], _ => m
  | m, id :: rest, i => updatePositionsFrom (updateJob m id (setPos (i + 1))) rest (i + 1)

/-- `updateQueuePositions`: walks `pendingQueue` and rewrites each member's
`position`/`estimatedProcessingTime` from its current array index. -/
def updateQueuePositions (s : QueueState) : QueueState :=
  { s with jobs := updatePositionsFrom s.jobs s.pendingQueue 0 }

/-- The caller-supplied part of a job (the `jobData` argument of `addJob`). -/
structure NewJobData where
  type : JobType
  data : JobData
  priority : Int
  maxAttempts : Nat
  deriving DecidableEq

/-- The job record built at the top of `addJob`. -/
def mkJob (s : QueueState) (jd : NewJobData) : QueueJob :=
  { id := s.nextId
    type := jd.type
    data := jd.data
    status := .pending
    priority := jd.priority
    attempts := 0
    maxAttempts := jd.maxAttempts
    createdAt := s.now
    updatedAt := s.now
    processedAt := none
    completedAt := none
    error := none
    transactionHash := none
    estimatedProcessingTime := none
    position := some (s.pendingQueue.length + 1) }

/-- `addJob`: store the job, push it onto the pending queue, recompute
positions, return the fresh id.  No payload validation happens here. -/
def addJob (s : QueueState) (jd : NewJobData) : Nat × QueueState :=
  let job := mkJob s jd
  let s1 : QueueState :=
    { s with
      jobs := mapSet s.jobs s.nextId job,
      pendingQueue := s.pendingQueue ++ [s.nextId],
      nextId := s.nextId + 1 }
  (s.nextId, updateQueuePositions s1)

/-- `getJob`: main store first, dead-letter queue as fallback. -/
def getJob (s : QueueState) (jobId : Nat) : Option QueueJob :=
  match mlookup s.jobs jobId with
  | some j => some j
  | none => mlookup s.deadLetterQueue jobId

def cancelMessage : String := "Cancelled by user"

/-- `cancelJob`: only jobs found in the store with status `pending` are
cancelled; the job is failed with the cancellation message and removed from
the pending queue. -/
def cancelJob (s : QueueState) (jobId : Nat) : Bool × QueueState :=
  match mlookup s.jobs jobId with
  | none => (false, s)
  | some job =>
    if job.status = JobStatus.pending then
      let s1 : QueueState :=
        { s with jobs := updateJob s.jobs jobId (fun j =>
            { j with status := .failed, error := some cancelMessage, updatedAt := s.now }) }
      if jobId ∈ s1.pendingQueue then
        (true, updateQueuePositions { s1 with pendingQueue := s1.pendingQueue.erase jobId })
      else (true, s1)
    else (false, s)

/-- The synchronous mutation `processJob` applies to a job before its first
`await`: status `processing`, `processedAt`/`updatedAt` stamped, `attempts`
incremented once. -/
def startJobF (now : Nat) (j : QueueJob) : QueueJob :=
  { j with status := .processing, processedAt := some now, updatedAt := now,
           attempts := j.attempts + 1 }

/-- The synchronous prefix of `processJob`: the guard
`if (this.processingJobs.has(job.id)) return;` followed by insertion into the
in-flight set and the `startJobF` mutation. -/
def processJobStart (s : QueueState) (jobId : Nat) : QueueState :=
  if jobId ∈ s.processingJobs then s
  else
    { s with
      processingJobs := s.processingJobs ++ [jobId],
      jobs := updateJob s.jobs jobId (startJobF s.now) }

/-- The sort comparator of `processNextJobs`:
`a.priority - b.priority`, ties broken by `a.createdAt - b.createdAt`.
`jobLt a b` holds when the comparator is strictly negative. -/
def jobLt (m : JobMap) (a b : Nat) : Bool :=
  match mlookup m a, mlookup m b with
  | some ja, some jb =>
    if ja.priority = jb.priority then decide (ja.createdAt < jb.createdAt)
    else decide (ja.priority < jb.priority)
  | _, _ => false

/-- Stable insertion used to model JS `Array.prototype.sort` (stable since
ES2019): a later element is inserted after all elements it is not strictly
below. -/
def insertByLt (lt : Nat → Nat → Bool) (x : Nat) : List Nat → List Nat
  | [] => [x]
  | y :: l => if lt x y then x :: y :: l else y :: insertByLt lt x l

def sortByLt (lt : Nat → Nat → Bool) (l : List Nat) : List Nat :=
  l.foldl (fun acc x => insertByLt lt x acc) []

/-- `processNextJobs`: bail out at the concurrency ceiling, otherwise sort the
pending queue, splice off up to `maxConcurrentJobs - inflight` jobs, start each
of them, and recompute positions. -/
def processNextJobs (s : QueueState) : QueueState :=
  if maxConcurrentJobs ≤ s.processingJobs.length then s
  else
    let sorted := sortByLt (jobLt s.jobs) s.pendingQueue
    let k := maxConcurrentJobs - s.processingJobs.length
    let s1 : QueueState := { s with pendingQueue := sorted.drop k }
    updateQueuePositions (List.foldl processJobStart s1 (sorted.take k))

/-- The regex `^0x[a-fA-F0-9]{40}$`. -/
def isHexDigitChar (c : Char) : Bool :=
  (('0' ≤ c) && (c ≤ '9')) || (('a' ≤ c) && (c ≤ 'f')) || (('A' ≤ c) && (c ≤ 'F'))

def isValidAddress (s : String) : Bool :=
  match s.data with
  | '0' :: 'x' :: rest => rest.length == 40 && rest.all isHexDigitChar
  | _ => false

/-- `validateJobData`, run inside `processJob` after the attempt has started;
returns the thrown error message, if any. -/
def validateJobData (job : QueueJob) : Option String :=
  if !(isValidAddress job.data.address) then some "Invalid recipient address"
  else if job.type = JobType.TOKEN_CLAIM then
    match job.data.tokenAddress with
    | none => some "Invalid token address"
    | some t => if !(isValidAddress t) then some "Invalid token address" else none
  else none

/-- `categorizeError`: the human-readable error string stored on the job. -/
def categorizeError (message : String) : String :=
  if containsSubStr message "Transaction submission timeout - network may be congested" then
    "Network congestion: Transaction submission took too long. Please try again."
  else if containsSubStr message "Transaction timeout - blockchain confirmation took too long" then
    "Transaction timeout: Blockchain confirmation took longer than expected. Your transaction may still succeed."
  else if containsSubStr message "network" || containsSubStr message "connection" || containsSubStr message "timeout" then
    "Network error: " ++ message
  else if containsSubStr message "insufficient funds" || containsSubStr message "balance" then
    "Insufficient funds: " ++ message
  else if containsSubStr message "gas" || containsSubStr message "Gas" then
    "Gas error: " ++ message
  else if containsSubStr message "nonce" || containsSubStr message "Nonce" then
    "Nonce error: " ++ message
  else if containsSubStr message "revert" || containsSubStr message "Revert" then
    "Transaction reverted: " ++ message
  else if containsSubStr message "rate limit" || containsSubStr message "too many requests" then
    "Rate limited: " ++ message
  else if containsSubStr message "cooldown" || containsSubStr message "Cooldown" then
    "Cooldown period not met: " ++ message
  else
    "Unknown error: " ++ message

/-- The `nonRetryablePatterns` array of `isRetryableError`. -/
def nonRetryablePatterns : List String :=
  ["insufficient funds", "cooldown", "blacklisted", "invalid address",
   "invalid token", "unauthorized", "forbidden", "not supported"]

/-- The `retryablePatterns` array of `isRetryableError`. -/
def retryablePatterns : List String :=
  ["network", "connection", "timeout", "rate limit", "gas", "nonce", "temporary"]

/-- `isRetryableError`: non-retryable patterns are scanned first, then
retryable patterns, and unknown messages default to retryable.  Matching is
case-insensitive substring containment on the lowercased message. -/
def isRetryableError (message : String) : Bool :=
  let m := lowerStr message
  if nonRetryablePatterns.any (fun p => containsSubStr m p) then false
  else if retryablePatterns.any (fun p => containsSubStr m p) then true
  else true

/-- `Math.min(1000 * Math.pow(2, job.attempts), 30000)` — the exponential
backoff base delay computed in the retry branch of `processJob`, with
`job.attempts` already incremented for the failed attempt. -/
def backoffBaseDelay (attempts : Nat) : Nat :=
  min (1000 * 2 ^ attempts) 30000

/-- `delay = baseDelay + jitter` with `jitter = Math.random() * 1000`. -/
def retryDelay (attempts jitter : Nat) : Nat :=
  backoffBaseDelay attempts + jitter

/-- The snapshot stored in the dead-letter queue:
`{ ...job, status: 'failed', updatedAt: Date.now() }`. -/
def deadEntry (job : QueueJob) (now : Nat) : QueueJob :=
  { job with status := .failed, updatedAt := now }

/-- `moveToDeadLetterQueue`: insert the failed job under its id, then, if the
store now holds more than 100 entries, delete the single oldest key. -/
def moveToDeadLetterQueue (dl : JobMap) (job : QueueJob) (now : Nat) : JobMap :=
  let dl1 := mapSet dl job.id (deadEntry job now)
  if deadLetterCapacity < dl1.length then
    match dl1 with
    | [] => dl1
    | oldest :: _ => mapDelete dl1 oldest.1
  else dl1

/-- The success continuation of `processJob`: mark completed, record the
transaction hash, free the concurrency slot. -/
def completeJob (s : QueueState) (jobId : Nat) (txHash : String) : QueueState :=
  { s with
    jobs := updateJob s.jobs jobId (fun j =>
      { j with status := .completed, transactionHash := some txHash,
               completedAt := some s.now, updatedAt := s.now }),
    processingJobs := s.processingJobs.erase jobId }

/-- The catch block of `processJob`: store the categorized error, then either
dead-letter the job (non-retryable error, or attempts exhausted) or mark it
`retrying`; the `finally` clause removes it from the in-flight set in both
branches. -/
def failJob (s : QueueState) (jobId : Nat) (message : String) : QueueState :=
  match mlookup s.jobs jobId with
  | none => s
  | some job0 =>
    let errMsg := categorizeError message
    if !(isRetryableError message) || job0.maxAttempts ≤ job0.attempts then
      let deadJob : QueueJob :=
        { job0 with error := some errMsg, status := .failed, updatedAt := s.now }
      { s with
        jobs := updateJob s.jobs jobId (fun j =>
          { j with error := some errMsg, status := .failed, updatedAt := s.now }),
        deadLetterQueue := moveToDeadLetterQueue s.deadLetterQueue deadJob s.now,
        processingJobs := s.processingJobs.erase jobId }
    else
      { s with
        jobs := updateJob s.jobs jobId (fun j =>
          { j with error := some errMsg, status := .retrying, updatedAt := s.now }),
        processingJobs := s.processingJobs.erase jobId }

/-- The `setTimeout` callback of the retry branch: if the job is still
`retrying`, set it back to `pending`, push it onto the pending queue and
recompute positions. -/
def retryReentry (s : QueueState) (jobId : Nat) : QueueState :=
  match mlookup s.jobs jobId with
  | none => s
  | some job =>
    if job.status = JobStatus.retrying then
      updateQueuePositions
        { s with
          jobs := updateJob s.jobs jobId (fun j => { j with status := .pending }),
          pendingQueue := s.pendingQueue ++ [jobId] }
    else s

/-- `cleanupOldJobs`: delete terminal jobs whose `updatedAt` is older than the
24h retention window from the main store only. -/
def cleanupOldJobs (s : QueueState) : QueueState :=
  let cutoff := s.now - retentionMs
  { s with jobs := s.jobs.filter (fun p =>
      !(((p.2.status == JobStatus.completed) || (p.2.status == JobStatus.failed))
        && decide (p.2.updatedAt < cutoff))) }

/-- `retryFailedJob` (dead-letter replay): clone the failed job as a brand-new
pending job with a fresh id and zeroed attempts, then drop the dead-letter
entry. -/
def retryFailedJob (s : QueueState) (jobId : Nat) : Bool × QueueState :=
  match mlookup s.deadLetterQueue jobId with
  | none => (false, s)
  | some failedJob =>
    let retryJob : QueueJob :=
      { failedJob with
        id := s.nextId, status := .pending, attempts := 0,
        createdAt := s.now, updatedAt := s.now, error := none,
        processedAt := none, completedAt := none, transactionHash := none }
    let s1 : QueueState :=
      { s with
        jobs := mapSet s.jobs s.nextId retryJob,
        pendingQueue := s.pendingQueue ++ [s.nextId],
        deadLetterQueue := mapDelete s.deadLetterQueue jobId,
        nextId := s.nextId + 1 }
    (true, updateQueuePositions s1)

/-! ### The transition system -/

/-- One atomic event of the queue.  `complete`/`fail` are the two ways the
asynchronous tail of `processJob` can resume for an in-flight job; their side
conditions record that a job failing validation can only fail with the
validation message, and that only a job passing validation can reach the
executor and succeed. -/
inductive Step : QueueState → QueueState → Prop where
  | add (s : QueueState) (jd : NewJobData) : Step s (addJob s jd).2
  | dispatch (s : QueueState) : Step s (processNextJobs s)
  | complete (s : QueueState) (jobId : Nat) (txHash : String)
      (hin : jobId ∈ s.processingJobs)
      (hval : ∀ j, mlookup s.jobs jobId = some j → validateJobData j = none) :
      Step s (completeJob s jobId txHash)
  | fail (s : QueueState) (jobId : Nat) (message : String)
      (hin : jobId ∈ s.processingJobs)
      (hval : ∀ j v, mlookup s.jobs jobId = some j → validateJobData j = some v →
        message = v) :
      Step s (failJob s jobId message)
  | reenter (s : QueueState) (jobId : Nat) : Step s (retryReentry s jobId)
  | cancel (s : QueueState) (jobId : Nat) : Step s (cancelJob s jobId).2
  | cleanup (s : QueueState) : Step s (cleanupOldJobs s)
  | replay (s : QueueState) (jobId : Nat) : Step s (retryFailedJob s jobId).2
  | tick (s : QueueState) (d : Nat) : Step s { s with now := s.now + d }

/-- The queue of a freshly constructed `TransactionQueue`. -/
def initState : QueueState :=
  { jobs := [], pendingQueue := [], processingJobs := [], deadLetterQueue := [],
    nextId := 0, now := 0 }

def Reachable (s : QueueState) : Prop :=
  Relation.ReflTransGen Step initState s

/-! ### Lemmas about `updateQueuePositions` -/

theorem keys_updatePositionsFrom (m : JobMap) (l : List Nat) (i : Nat) :
    (updatePositionsFrom m l i).map Prod.fst = m.map Prod.fst := by
  induction l generalizing m i with
  | nil => rfl
  | cons x xs ih =>
    simp only [updatePositionsFrom]
    rw [ih, keys_updateJob]

theorem mlookup_map_updatePositionsFrom {α : Type} (g : QueueJob → α)
    (hg : ∀ n j, g (setPos n j) = g j) (m : JobMap) (l : List Nat) (i k : Nat) :
    (mlookup (updatePositionsFrom m l i) k).map g = (mlookup m k).map g := by
  induction l generalizing m i with
  | nil => rfl
  | cons x xs ih =>
    simp only [updatePositionsFrom]
    rw [ih, mlookup_updateJob]
    by_cases h : x = k
    · rw [if_pos h]
      cases hm : mlookup m k with
      | none => rfl
      | some j => simp [hg]
    · rw [if_neg h]

theorem mlookup_updatePositionsFrom_notmem (m : JobMap) (l : List Nat) (i k : Nat)
    (hk : k ∉ l) :
    mlookup (updatePositionsFrom m l i) k = mlookup m k := by
  induction l generalizing m i with
  | nil => rfl
  | cons x xs ih =>
    simp only [updatePositionsFrom]
    have hx : ¬ x = k := fun hc => hk (hc ▸ List.mem_cons_self x xs)
    rw [ih _ _ (fun hc => hk (List.mem_cons_of_mem _ hc)), mlookup_updateJob, if_neg hx]

theorem mlookup_updatePositionsFrom_get (m : JobMap) (l : List Nat) (i : Nat)
    (hnd : l.Nodup) (n : Nat) (h : n < l.length) :
    mlookup (updatePositionsFrom m l i) (l.get ⟨n, h⟩) =
      (mlookup m (l.get ⟨n, h⟩)).map (setPos (i + n + 1)) := by
  induction l generalizing m i n with
  | nil => simp at h
  | cons x xs ih =>
    rw [List.nodup_cons] at hnd
    simp only [updatePositionsFrom]
    cases n with
    | zero =>
      have hget : (x :: xs).get ⟨0, h⟩ = x := rfl
      rw [hget, mlookup_updatePositionsFrom_notmem _ _ _ _ hnd.1, mlookup_updateJob,
        if_pos rfl]
    | succ n' =>
      have hlt : n' < xs.length := Nat.lt_of_succ_lt_succ h
      have hget : (x :: xs).get ⟨n' + 1, h⟩ = xs.get ⟨n', hlt⟩ := rfl
      rw [hget, ih _ _ hnd.2 n' hlt]
      have hx : ¬ x = xs.get ⟨n', hlt⟩ := fun hc =>
        hnd.1 (by rw [hc]; exact List.get_mem xs n' hlt)
      rw [mlookup_updateJob, if_neg hx]
      have harith : i + 1 + n' + 1 = i + (n' + 1) + 1 := by omega
      rw [harith]

/-! ### Lemmas about the stable sort -/

theorem insertByLt_perm (lt : Nat → Nat → Bool) (x : Nat) (l : List Nat) :
    List.Perm (insertByLt lt x l) (x :: l) := by
  induction l with
  | nil => exact List.Perm.refl _
  | cons y ys ih =>
    simp only [insertByLt]
    by_cases h : lt x y = true
    · rw [if_pos h]
    · rw [if_neg h]
      exact (ih.cons y).trans (List.Perm.swap x y ys)

theorem sortByLt_perm_aux (lt : Nat → Nat → Bool) (l acc : List Nat) :
    List.Perm (List.foldl (fun a x => insertByLt lt x a) acc l) (acc ++ l) := by
  induction l generalizing acc with
  | nil => simp
  | cons x xs ih =>
    simp only [List.foldl_cons]
    refine (ih (insertByLt lt x acc)).trans ?_
    have h1 : List.Perm (insertByLt lt x acc ++ xs) ((x :: acc) ++ xs) :=
      (insertByLt_perm lt x acc).append_right xs
    refine h1.trans ?_
    simpa using List.perm_middle.symm

theorem sortByLt_perm (lt : Nat → Nat → Bool) (l : List Nat) :
    List.Perm (sortByLt lt l) l := by
  simpa using sortByLt_perm_aux lt l []

theorem sortByLt_mem (lt : Nat → Nat → Bool) (l : List Nat) (x : Nat) :
    x ∈ sortByLt lt l ↔ x ∈ l :=
  (sortByLt_perm lt l).mem_iff

theorem sortByLt_nodup (lt : Nat → Nat → Bool) (l : List Nat) (h : l.Nodup) :
    (sortByLt lt l).Nodup :=
  (sortByLt_perm lt l).nodup_iff.mpr h

/-! ### Characterization of the dispatch loop -/

theorem foldl_processJobStart_char (sel : List Nat) (s : QueueState)
    (hdisj : ∀ id ∈ sel, id ∉ s.processingJobs) (hnd : sel.Nodup) :
    (List.foldl processJobStart s sel).pendingQueue = s.pendingQueue ∧
    (List.foldl processJobStart s sel).deadLetterQueue = s.deadLetterQueue ∧
    (List.foldl processJobStart s sel).nextId = s.nextId ∧
    (List.foldl processJobStart s sel).now = s.now ∧
    (List.foldl processJobStart s sel).processingJobs = s.processingJobs ++ sel ∧
    (∀ k, k ∉ sel → mlookup (List.foldl processJobStart s sel).jobs k = mlookup s.jobs k) ∧
    (∀ k, k ∈ sel → mlookup (List.foldl processJobStart s sel).jobs k =
      (mlookup s.jobs k).map (startJobF s.now)) ∧
    ((List.foldl processJobStart s sel).jobs.map Prod.fst = s.jobs.map Prod.fst) := by
  induction sel generalizing s with
  | nil => simp
  | cons x xs ih =>
    rw [List.nodup_cons] at hnd
    have hx : x ∉ s.processingJobs := hdisj x (List.mem_cons_self _ _)
    have hstep : processJobStart s x =
        { s with processingJobs := s.processingJobs ++ [x],
                 jobs := updateJob s.jobs x (startJobF s.now) } := by
      rw [processJobStart, if_neg hx]
    have hdisj' : ∀ id ∈ xs, id ∉ (processJobStart s x).processingJobs := by
      intro id hid
      rw [hstep]
      simp only [List.mem_append, List.mem_singleton]
      rintro (h | h)
      · exact hdisj id (List.mem_cons_of_mem _ hid) h
      · exact hnd.1 (h ▸ hid)
    obtain ⟨h1, h2, h3, h4, h5, h6, h7, h8⟩ := ih (processJobStart s x) hdisj' hnd.2
    rw [List.foldl_cons]
    refine ⟨by rw [h1, hstep], by rw [h2, hstep], by rw [h3, hstep], by rw [h4, hstep],
      ?_, ?_, ?_, ?_⟩
    · rw [h5, hstep]
      simp
    · intro k hk
      have hkx : ¬ x = k := fun hc => hk (hc ▸ List.mem_cons_self x xs)
      have hkxs : k ∉ xs := fun hc => hk (List.mem_cons_of_mem _ hc)
      rw [h6 k hkxs, hstep]
      simp only
      rw [mlookup_updateJob, if_neg hkx]
    · intro k hk
      rcases List.mem_cons.mp hk with hk1 | hk1
      · subst hk1
        have hkxs : k ∉ xs := hnd.1
        rw [h6 k hkxs, hstep]
        simp only
        rw [mlookup_updateJob, if_pos rfl]
      · have hkx : ¬ x = k := fun hc => hnd.1 (hc ▸ hk1)
        have hnow : (processJobStart s x).now = s.now := by rw [hstep]
        rw [h7 k hk1, hnow, hstep]
        simp only
        rw [mlookup_updateJob, if_neg hkx]
    · rw [h8, hstep]
      simp only
      rw [keys_updateJob]

/-! ### Lemmas about the dead-letter queue -/

theorem moveToDeadLetterQueue_small (dl : JobMap) (job : QueueJob) (now : Nat)
    (hfresh : mlookup dl job.id = none) (hlen : dl.length < deadLetterCapacity) :
    moveToDeadLetterQueue dl job now = dl ++ [(job.id, deadEntry job now)] := by
  rw [moveToDeadLetterQueue, mapSet_of_none _ _ _ hfresh]
  have hno : ¬ (deadLetterCapacity < (dl ++ [(job.id, deadEntry job now)]).length) := by
    simp only [List.length_append, List.length_singleton]
    omega
  rw [if_neg hno]

theorem moveToDeadLetterQueue_full (dl : JobMap) (job : QueueJob) (now : Nat)
    (hfresh : mlookup dl job.id = none) (hnd : (dl.map Prod.fst).Nodup)
    (hlen : dl.length = deadLetterCapacity) :
    moveToDeadLetterQueue dl job now = dl.tail ++ [(job.id, deadEntry job now)] := by
  rw [moveToDeadLetterQueue, mapSet_of_none _ _ _ hfresh]
  cases dl with
  | nil => simp [deadLetterCapacity] at hlen
  | cons p rest =>
    have hgt : deadLetterCapacity < ((p :: rest) ++ [(job.id, deadEntry job now)]).length := by
      simp only [List.length_append, List.length_cons, List.length_singleton] at hlen ⊢
      omega
    rw [if_pos hgt]
    have hnd1 : ((((p :: rest) ++ [(job.id, deadEntry job now)]) : JobMap).map Prod.fst).Nodup := by
      rw [List.map_append]
      rw [List.nodup_append]
      refine ⟨hnd, List.nodup_singleton _, ?_⟩
      intro a ha hb
      simp only [List.map_cons, List.map_nil, List.mem_singleton] at hb
      subst hb
      exact (mlookup_eq_none_iff _ _).mp hfresh ha
    show mapDelete ((p :: rest) ++ [(job.id, deadEntry job now)]) p.1 = _
    have := mapDelete_cons_head p (rest ++ [(job.id, deadEntry job now)]) (by
      simpa using hnd1)
    simpa using this

theorem moveToDeadLetterQueue_length (dl : JobMap) (job : QueueJob) (now : Nat)
    (hfresh : mlookup dl job.id = none) (hnd : (dl.map Prod.fst).Nodup)
    (hlen : dl.length ≤ deadLetterCapacity) :
    (moveToDeadLetterQueue dl job now).length ≤ deadLetterCapacity := by
  rcases Nat.lt_or_ge dl.length deadLetterCapacity with h | h
  · rw [moveToDeadLetterQueue_small dl job now hfresh h]
    simp only [List.length_append, List.length_singleton]
    omega
  · have heq : dl.length = deadLetterCapacity := Nat.le_antisymm hlen h
    rw [moveToDeadLetterQueue_full dl job now hfresh hnd heq]
    cases dl with
    | nil => simp [deadLetterCapacity] at heq
    | cons p rest =>
      simp at heq ⊢
      omega

theorem mlookup_moveToDeadLetterQueue_self (dl : JobMap) (job : QueueJob) (now : Nat)
    (hfresh : mlookup dl job.id = none) (hnd : (dl.map Prod.fst).Nodup)
    (hlen : dl.length ≤ deadLetterCapacity) :
    mlookup (moveToDeadLetterQueue dl job now) job.id = some (deadEntry job now) := by
  rcases Nat.lt_or_ge dl.length deadLetterCapacity with h | h
  · rw [moveToDeadLetterQueue_small dl job now hfresh h,
      mlookup_append_of_none _ _ _ hfresh, mlookup_cons, if_pos rfl]
  · have heq : dl.length = deadLetterCapacity := Nat.le_antisymm hlen h
    rw [moveToDeadLetterQueue_full dl job now hfresh hnd heq]
    cases dl with
    | nil => simp [deadLetterCapacity] at heq
    | cons p rest =>
      have hrest : mlookup rest job.id = none := by
        rw [mlookup_cons] at hfresh
        by_cases hp : p.1 = job.id
        · rw [if_pos hp] at hfresh
          exact absurd hfresh (by simp)
        · rwa [if_neg hp] at hfresh
      rw [List.tail_cons, mlookup_append_of_none _ _ _ hrest, mlookup_cons, if_pos rfl]

theorem mlookup_moveToDeadLetterQueue (dl : JobMap) (job : QueueJob) (now k : Nat)
    (hfresh : mlookup dl job.id = none) (hnd : (dl.map Prod.fst).Nodup)
    (hlen : dl.length ≤ deadLetterCapacity) (j : QueueJob)
    (h : mlookup (moveToDeadLetterQueue dl job now) k = some j) :
    (k = job.id ∧ j = deadEntry job now) ∨ mlookup dl k = some j := by
  have hsingle : ∀ hm2 : mlookup ([(job.id, deadEntry job now)] : JobMap) k = some j,
      k = job.id ∧ j = deadEntry job now := by
    intro hm2
    rw [mlookup_cons] at hm2
    by_cases hk : job.id = k
    · rw [if_pos hk] at hm2
      exact ⟨hk.symm, by simpa using hm2.symm⟩
    · rw [if_neg hk] at hm2
      exact absurd hm2 (by simp [mlookup])
  rcases Nat.lt_or_ge dl.length deadLetterCapacity with hsz | hsz
  · rw [moveToDeadLetterQueue_small dl job now hfresh hsz] at h
    cases hm : mlookup dl k with
    | some v =>
      rw [mlookup_append_of_some _ _ _ _ hm] at h
      exact Or.inr h
    | none =>
      rw [mlookup_append_of_none _ _ _ hm] at h
      exact Or.inl (hsingle h)
  · have heq : dl.length = deadLetterCapacity := Nat.le_antisymm hlen hsz
    rw [moveToDeadLetterQueue_full dl job now hfresh hnd heq] at h
    cases dl with
    | nil => simp [deadLetterCapacity] at heq
    | cons p rest =>
      rw [List.tail_cons] at h
      rw [List.map_cons, List.nodup_cons] at hnd
      cases hm : mlookup rest k with
      | some v =>
        rw [mlookup_append_of_some _ _ _ _ hm] at h
        have hpk : ¬ p.1 = k := by
          intro hc
          exact hnd.1 (hc ▸ ((mlookup_isSome_iff rest k).mp (by rw [hm]; rfl)))
        rw [mlookup_cons, if_neg hpk]
        exact Or.inr (hm.trans h)
      | none =>
        rw [mlookup_append_of_none _ _ _ hm] at h
        exact Or.inl (hsingle h)

theorem keys_moveToDeadLetterQueue_nodup (dl : JobMap) (job : QueueJob) (now : Nat)
    (hfresh : mlookup dl job.id = none) (hnd : (dl.map Prod.fst).Nodup)
    (hlen : dl.length ≤ deadLetterCapacity) :
    ((moveToDeadLetterQueue dl job now).map Prod.fst).Nodup := by
  have hmain : ((dl ++ [(job.id, deadEntry job now)]).map Prod.fst).Nodup := by
    rw [List.map_append, List.nodup_append]
    refine ⟨hnd, List.nodup_singleton _, ?_⟩
    intro a ha hb
    simp only [List.map_cons, List.map_nil, List.mem_singleton] at hb
    subst hb
    exact (mlookup_eq_none_iff _ _).mp hfresh ha
  rcases Nat.lt_or_ge dl.length deadLetterCapacity with hsz | hsz
  · rw [moveToDeadLetterQueue_small dl job now hfresh hsz]
    exact hmain
  · have heq : dl.length = deadLetterCapacity := Nat.le_antisymm hlen hsz
    rw [moveToDeadLetterQueue_full dl job now hfresh hnd heq]
    cases dl with
    | nil => simp [deadLetterCapacity] at heq
    | cons p rest =>
      rw [List.tail_cons]
      have : (((p :: rest) ++ [(job.id, deadEntry job now)]).map Prod.fst).Nodup := hmain
      rw [List.cons_append, List.map_cons, List.nodup_cons] at this
      exact this.2

/-! ### The reachable-state invariant -/

def statusOf (m : JobMap) (k : Nat) : Option JobStatus :=
  (mlookup m k).map QueueJob.status

def errorOf (m : JobMap) (k : Nat) : Option (Option String) :=
  (mlookup m k).map QueueJob.error

/-- The job fields that `updateQueuePositions` can never change. -/
def jobCore (j : QueueJob) : Nat × JobStatus × Nat × Nat × Option String :=
  (j.id, j.status, j.attempts, j.maxAttempts, j.error)

/-- The attempts ceiling discipline a single job record obeys (for jobs
submitted with a positive `maxAttempts`). -/
def attemptsOK (j : QueueJob) : Prop :=
  1 ≤ j.maxAttempts →
    (j.attempts ≤ j.maxAttempts ∧
      ((j.status = JobStatus.pending ∨ j.status = JobStatus.retrying) →
        j.attempts < j.maxAttempts))

structure Inv (s : QueueState) : Prop where
  jobsKeysNodup : (s.jobs.map Prod.fst).Nodup
  dlKeysNodup : (s.deadLetterQueue.map Prod.fst).Nodup
  pendingNodup : s.pendingQueue.Nodup
  processingNodup : s.processingJobs.Nodup
  processingBound : s.processingJobs.length ≤ maxConcurrentJobs
  pendingStatus : ∀ id ∈ s.pendingQueue, statusOf s.jobs id = some JobStatus.pending
  processingStatus : ∀ id ∈ s.processingJobs,
    statusOf s.jobs id = some JobStatus.processing
  jobsOK : ∀ k j, mlookup s.jobs k = some j → k < s.nextId ∧ j.id = k ∧ attemptsOK j
  dlOK : ∀ k j, mlookup s.deadLetterQueue k = some j →
    k < s.nextId ∧ j.id = k ∧ j.status = JobStatus.failed ∧ attemptsOK j ∧
    k ∉ s.pendingQueue ∧ k ∉ s.processingJobs ∧
    (statusOf s.jobs k = some JobStatus.failed ∨ statusOf s.jobs k = none)
  dlBound : s.deadLetterQueue.length ≤ deadLetterCapacity
  positions : ∀ i (h : i < s.pendingQueue.length),
    ∃ j, mlookup s.jobs (s.pendingQueue.get ⟨i, h⟩) = some j ∧
      j.position = some (i + 1)

/-- `Inv` minus the `positions` clause: what a step has to establish for the
intermediate state on which it then calls `updateQueuePositions`. -/
structure PreInv (s : QueueState) : Prop where
  jobsKeysNodup : (s.jobs.map Prod.fst).Nodup
  dlKeysNodup : (s.deadLetterQueue.map Prod.fst).Nodup
  pendingNodup : s.pendingQueue.Nodup
  processingNodup : s.processingJobs.Nodup
  processingBound : s.processingJobs.length ≤ maxConcurrentJobs
  pendingStatus : ∀ id ∈ s.pendingQueue, statusOf s.jobs id = some JobStatus.pending
  processingStatus : ∀ id ∈ s.processingJobs,
    statusOf s.jobs id = some JobStatus.processing
  jobsOK : ∀ k j, mlookup s.jobs k = some j → k < s.nextId ∧ j.id = k ∧ attemptsOK j
  dlOK : ∀ k j, mlookup s.deadLetterQueue k = some j →
    k < s.nextId ∧ j.id = k ∧ j.status = JobStatus.failed ∧ attemptsOK j ∧
    k ∉ s.pendingQueue ∧ k ∉ s.processingJobs ∧
    (statusOf s.jobs k = some JobStatus.failed ∨ statusOf s.jobs k = none)
  dlBound : s.deadLetterQueue.length ≤ deadLetterCapacity

theorem statusOf_some (m : JobMap) (k : Nat) (st : JobStatus)
    (h : statusOf m k = some st) : ∃ j, mlookup m k = some j ∧ j.status = st := by
  unfold statusOf at h
  cases hm : mlookup m k with
  | none => rw [hm] at h; simp at h
  | some j =>
    rw [hm] at h
    simp only [Option.map_some'] at h
    exact ⟨j, rfl, by injection h⟩

theorem statusOf_eq_some (m : JobMap) (k : Nat) (j : QueueJob)
    (h : mlookup m k = some j) : statusOf m k = some j.status := by
  unfold statusOf
  rw [h]
  rfl

theorem pending_not_processing (s : QueueState)
    (hpend : ∀ id ∈ s.pendingQueue, statusOf s.jobs id = some JobStatus.pending)
    (hproc : ∀ id ∈ s.processingJobs, statusOf s.jobs id = some JobStatus.processing)
    (id : Nat) (h : id ∈ s.pendingQueue) : id ∉ s.processingJobs := by
  intro hc
  have h1 := hpend id h
  have h2 := hproc id hc
  rw [h1] at h2
  exact absurd h2 (by simp)

theorem attemptsOK_congr (a b : QueueJob) (hs : a.status = b.status)
    (ha : a.attempts = b.attempts) (hm : a.maxAttempts = b.maxAttempts)
    (h : attemptsOK b) : attemptsOK a := by
  simp only [attemptsOK, hs, ha, hm]
  exact h

theorem statusOf_updateQueuePositions (s : QueueState) (k : Nat) :
    statusOf (updateQueuePositions s).jobs k = statusOf s.jobs k :=
  mlookup_map_updatePositionsFrom QueueJob.status (fun _ _ => rfl)
    s.jobs s.pendingQueue 0 k

theorem coreOf_updatePositionsFrom (m : JobMap) (l : List Nat) (i k : Nat) :
    (mlookup (updatePositionsFrom m l i) k).map jobCore = (mlookup m k).map jobCore :=
  mlookup_map_updatePositionsFrom jobCore (fun _ _ => rfl) m l i k

theorem core_transfer (m m' : JobMap) (k : Nat)
    (h : (mlookup m' k).map jobCore = (mlookup m k).map jobCore)
    (j' : QueueJob) (hj' : mlookup m' k = some j') :
    ∃ j, mlookup m k = some j ∧ j'.id = j.id ∧ j'.status = j.status ∧
      j'.attempts = j.attempts ∧ j'.maxAttempts = j.maxAttempts ∧ j'.error = j.error := by
  rw [hj'] at h
  cases hm : mlookup m k with
  | none => rw [hm] at h; simp at h
  | some j =>
    rw [hm] at h
    simp only [Option.map_some'] at h
    have h2 : jobCore j' = jobCore j := by injection h
    simp only [jobCore, Prod.mk.injEq] at h2
    exact ⟨j, rfl, h2.1, h2.2.1, h2.2.2.1, h2.2.2.2.1, h2.2.2.2.2⟩

theorem positions_updateQueuePositions (s : QueueState)
    (hnd : s.pendingQueue.Nodup)
    (hsome : ∀ id ∈ s.pendingQueue, ∃ j, mlookup s.jobs id = some j) :
    ∀ i (h : i < s.pendingQueue.length),
      ∃ j, mlookup (updateQueuePositions s).jobs (s.pendingQueue.get ⟨i, h⟩) = some j ∧
        j.position = some (i + 1) := by
  intro i h
  have hget := mlookup_updatePositionsFrom_get s.jobs s.pendingQueue 0 hnd i h
  obtain ⟨j, hj⟩ := hsome _ (List.get_mem _ _ _)
  rw [hj] at hget
  refine ⟨setPos (0 + i + 1) j, ?_, ?_⟩
  · show mlookup (updatePositionsFrom s.jobs s.pendingQueue 0) _ = _
    rw [hget]
    rfl
  · show (setPos (0 + i + 1) j).position = some (i + 1)
    simp [setPos]

theorem inv_of_preInv (sm : QueueState) (h : PreInv sm) :
    Inv (updateQueuePositions sm) := by
  have hjobs : (updateQueuePositions sm).jobs = updatePositionsFrom sm.jobs sm.pendingQueue 0 := rfl
  have hpe : (updateQueuePositions sm).pendingQueue = sm.pendingQueue := rfl
  have hpr : (updateQueuePositions sm).processingJobs = sm.processingJobs := rfl
  have hdl : (updateQueuePositions sm).deadLetterQueue = sm.deadLetterQueue := rfl
  have hnx : (updateQueuePositions sm).nextId = sm.nextId := rfl
  refine ⟨?_, ?_, ?_, ?_, ?_, ?_, ?_, ?_, ?_, ?_, ?_⟩
  · rw [hjobs, keys_updatePositionsFrom]
    exact h.jobsKeysNodup
  · rw [hdl]
    exact h.dlKeysNodup
  · rw [hpe]
    exact h.pendingNodup
  · rw [hpr]
    exact h.processingNodup
  · rw [hpr]
    exact h.processingBound
  · intro id hid
    rw [hpe] at hid
    rw [statusOf_updateQueuePositions]
    exact h.pendingStatus id hid
  · intro id hid
    rw [hpr] at hid
    rw [statusOf_updateQueuePositions]
    exact h.processingStatus id hid
  · intro k j hkj
    rw [hjobs] at hkj
    obtain ⟨j0, hj0, hid, hst, hat, hmx, herr⟩ :=
      core_transfer sm.jobs _ k (coreOf_updatePositionsFrom sm.jobs sm.pendingQueue 0 k) j hkj
    obtain ⟨h1, h2, h3⟩ := h.jobsOK k j0 hj0
    rw [hnx]
    exact ⟨h1, hid.trans h2, attemptsOK_congr j j0 hst hat hmx h3⟩
  · intro k j hkj
    rw [hdl] at hkj
    obtain ⟨h1, h2, h3, h4, h5, h6, h7⟩ := h.dlOK k j hkj
    rw [hnx, hpe, hpr, statusOf_updateQueuePositions]
    exact ⟨h1, h2, h3, h4, h5, h6, h7⟩
  · rw [hdl]
    exact h.dlBound
  · intro i hi
    rw [hpe] at hi
    have hsome : ∀ id ∈ sm.pendingQueue, ∃ j, mlookup sm.jobs id = some j := by
      intro id hid
      obtain ⟨j, hj, _⟩ := statusOf_some _ _ _ (h.pendingStatus id hid)
      exact ⟨j, hj⟩
    exact positions_updateQueuePositions sm h.pendingNodup hsome i hi

/-! ### Preservation of the invariant by each step -/

theorem inv_tick (s : QueueState) (d : Nat) (hInv : Inv s) :
    Inv { s with now := s.now + d } :=
  ⟨hInv.jobsKeysNodup, hInv.dlKeysNodup, hInv.pendingNodup, hInv.processingNodup,
    hInv.processingBound, hInv.pendingStatus, hInv.processingStatus, hInv.jobsOK,
    hInv.dlOK, hInv.dlBound, hInv.positions⟩

theorem inv_cleanupOldJobs (s : QueueState) (hInv : Inv s) :
    Inv (cleanupOldJobs s) := by
  set pred : Nat × QueueJob → Bool := fun p =>
    !(((p.2.status == JobStatus.completed) || (p.2.status == JobStatus.failed))
      && decide (p.2.updatedAt < s.now - retentionMs)) with hpred
  have hjobs : (cleanupOldJobs s).jobs = s.jobs.filter pred := rfl
  have hcharSome : ∀ kk v, mlookup s.jobs kk = some v →
      mlookup (cleanupOldJobs s).jobs kk = if pred (kk, v) then some v else none := by
    intro kk v hv
    rw [hjobs, mlookup_filter pred s.jobs kk hInv.jobsKeysNodup, hv]
  have hcharNone : ∀ kk, mlookup s.jobs kk = none →
      mlookup (cleanupOldJobs s).jobs kk = none := by
    intro kk hv
    rw [hjobs, mlookup_filter pred s.jobs kk hInv.jobsKeysNodup, hv]
  have hkeep : ∀ kk v, mlookup s.jobs kk = some v →
      v.status ≠ JobStatus.completed → v.status ≠ JobStatus.failed →
      mlookup (cleanupOldJobs s).jobs kk = some v := by
    intro kk v hv h1 h2
    have hb1 : (v.status == JobStatus.completed) = false := beq_eq_false_iff_ne.mpr h1
    have hb2 : (v.status == JobStatus.failed) = false := beq_eq_false_iff_ne.mpr h2
    have hp : pred (kk, v) = true := by simp [hpred, hb1, hb2]
    rw [hcharSome kk v hv, if_pos hp]
  refine ⟨?_, hInv.dlKeysNodup, hInv.pendingNodup, hInv.processingNodup,
    hInv.processingBound, ?_, ?_, ?_, ?_, hInv.dlBound, ?_⟩
  · rw [hjobs]
    exact hInv.jobsKeysNodup.sublist (keys_filter_sublist pred s.jobs)
  · intro id hid
    obtain ⟨j, hj, hst⟩ := statusOf_some _ _ _ (hInv.pendingStatus id hid)
    have hk := hkeep id j hj (by rw [hst]; simp) (by rw [hst]; simp)
    rw [statusOf, hk]
    simp [hst]
  · intro id hid
    obtain ⟨j, hj, hst⟩ := statusOf_some _ _ _ (hInv.processingStatus id hid)
    have hk := hkeep id j hj (by rw [hst]; simp) (by rw [hst]; simp)
    rw [statusOf, hk]
    simp [hst]
  · intro kk j hkj
    cases hm : mlookup s.jobs kk with
    | none => rw [hcharNone kk hm] at hkj; simp at hkj
    | some v =>
      rw [hcharSome kk v hm] at hkj
      by_cases hp : pred (kk, v) = true
      · rw [if_pos hp] at hkj
        have hjv : v = j := by injection hkj
        subst hjv
        exact hInv.jobsOK kk v hm
      · rw [if_neg hp] at hkj
        simp at hkj
  · intro kk j hkj
    obtain ⟨h1, h2, h3, h4, h5, h6, h7⟩ := hInv.dlOK kk j hkj
    refine ⟨h1, h2, h3, h4, h5, h6, ?_⟩
    rcases h7 with h7 | h7
    · obtain ⟨v, hv, hst⟩ := statusOf_some _ _ _ h7
      by_cases hp : pred (kk, v) = true
      · left
        rw [statusOf, hcharSome kk v hv, if_pos hp]
        simp [hst]
      · right
        rw [statusOf, hcharSome kk v hv, if_neg hp]
        rfl
    · right
      have hnone : mlookup s.jobs kk = none := by
        unfold statusOf at h7
        cases hm : mlookup s.jobs kk with
        | none => rfl
        | some v => rw [hm] at h7; simp at h7
      rw [statusOf, hcharNone kk hnone]
      rfl
  · intro i hi
    obtain ⟨j, hj, hpos⟩ := hInv.positions i hi
    have hmem : s.pendingQueue.get ⟨i, hi⟩ ∈ s.pendingQueue := List.get_mem _ _ _
    obtain ⟨j2, hj2, hst⟩ := statusOf_some _ _ _ (hInv.pendingStatus _ hmem)
    have hj12 : j2 = j := by
      rw [hj] at hj2
      injection hj2 with h
      exact h.symm
    subst hj12
    have hk := hkeep _ j2 hj (by rw [hst]; simp) (by rw [hst]; simp)
    exact ⟨j2, hk, hpos⟩

theorem inv_completeJob (s : QueueState) (jobId : Nat) (txHash : String)
    (hin : jobId ∈ s.processingJobs) (hInv : Inv s) :
    Inv (completeJob s jobId txHash) := by
  obtain ⟨job0, hjob0, hst0⟩ := statusOf_some _ _ _ (hInv.processingStatus jobId hin)
  have hjobs : (completeJob s jobId txHash).jobs =
      updateJob s.jobs jobId (fun j =>
        { j with status := .completed, transactionHash := some txHash,
                 completedAt := some s.now, updatedAt := s.now }) := rfl
  have hproc : (completeJob s jobId txHash).processingJobs =
      s.processingJobs.erase jobId := rfl
  have hpend : (completeJob s jobId txHash).pendingQueue = s.pendingQueue := rfl
  have hjid : jobId ∉ s.pendingQueue := fun hc =>
    pending_not_processing s hInv.pendingStatus hInv.processingStatus jobId hc hin
  refine ⟨?_, hInv.dlKeysNodup, hInv.pendingNodup, ?_, ?_, ?_, ?_, ?_, ?_,
    hInv.dlBound, ?_⟩
  · rw [hjobs, keys_updateJob]
    exact hInv.jobsKeysNodup
  · rw [hproc]
    exact hInv.processingNodup.erase _
  · rw [hproc]
    exact le_trans (List.erase_sublist _ _).length_le hInv.processingBound
  · rw [hjobs]
    intro id hid
    have hne : ¬ jobId = id := fun hc => hjid (hc ▸ hid)
    rw [statusOf, mlookup_updateJob, if_neg hne]
    exact hInv.pendingStatus id hid
  · rw [hjobs, hproc]
    intro id hid
    have hidmem := hInv.processingNodup.mem_erase_iff.mp hid
    have hne : ¬ jobId = id := fun hc => hidmem.1 hc.symm
    rw [statusOf, mlookup_updateJob, if_neg hne]
    exact hInv.processingStatus id hidmem.2
  · rw [hjobs]
    intro k j hkj
    rw [mlookup_updateJob] at hkj
    by_cases hk : jobId = k
    · subst hk
      rw [if_pos rfl, hjob0] at hkj
      simp only [Option.map_some'] at hkj
      obtain ⟨h1, h2, h3⟩ := hInv.jobsOK jobId job0 hjob0
      have hj := (Option.some.inj hkj).symm
      subst hj
      refine ⟨h1, h2, ?_⟩
      intro hmax
      obtain ⟨ha, _⟩ := h3 hmax
      refine ⟨ha, ?_⟩
      intro hc
      rcases hc with hc | hc <;> exact absurd hc (by simp)
    · rw [if_neg hk] at hkj
      exact hInv.jobsOK k j hkj
  · rw [hjobs, hproc]
    intro k j hkj
    obtain ⟨h1, h2, h3, h4, h5, h6, h7⟩ := hInv.dlOK k j hkj
    have hkne : ¬ jobId = k := by
      intro hc
      subst hc
      rcases h7 with h7 | h7 <;> rw [statusOf_eq_some _ _ _ hjob0, hst0] at h7 <;>
        exact absurd h7 (by simp)
    refine ⟨h1, h2, h3, h4, h5, ?_, ?_⟩
    · intro hc
      exact h6 (List.erase_subset _ _ hc)
    · rw [statusOf, mlookup_updateJob, if_neg hkne]
      exact h7
  · rw [hjobs, hpend]
    intro i hi
    obtain ⟨j, hj, hpos⟩ := hInv.positions i hi
    have hmem : s.pendingQueue.get ⟨i, hi⟩ ∈ s.pendingQueue := List.get_mem _ _ _
    have hne : ¬ jobId = s.pendingQueue.get ⟨i, hi⟩ := fun hc => hjid (hc ▸ hmem)
    refine ⟨j, ?_, hpos⟩
    rw [mlookup_updateJob, if_neg hne]
    exact hj

theorem inv_cancelJob (s : QueueState) (jobId : Nat) (hInv : Inv s) :
    Inv (cancelJob s jobId).2 := by
  cases hm : mlookup s.jobs jobId with
  | none =>
    have heq : cancelJob s jobId = (false, s) := by
      unfold cancelJob
      rw [hm]
    rw [heq]
    exact hInv
  | some job =>
    by_cases hst : job.status = JobStatus.pending
    · have hnp : jobId ∉ s.processingJobs := by
        intro hc
        obtain ⟨j2, hj2, hs2⟩ := statusOf_some _ _ _ (hInv.processingStatus jobId hc)
        rw [hm] at hj2
        injection hj2 with h
        rw [← h, hst] at hs2
        exact absurd hs2 (by simp)
      have hdlne : ∀ k j2, mlookup s.deadLetterQueue k = some j2 → ¬ jobId = k := by
        intro k j2 hk hc
        obtain ⟨_, _, _, _, _, _, h7⟩ := hInv.dlOK k j2 hk
        rw [← hc] at h7
        rcases h7 with h7 | h7 <;> rw [statusOf, hm] at h7 <;> simp at h7
        rw [hst] at h7
        exact absurd h7 (by simp)
      have hok : ∀ k j2,
          mlookup (updateJob s.jobs jobId (fun j =>
            { j with status := .failed, error := some cancelMessage, updatedAt := s.now })) k =
            some j2 → k < s.nextId ∧ j2.id = k ∧ attemptsOK j2 := by
        intro k j2 hkj
        rw [mlookup_updateJob] at hkj
        by_cases hk : jobId = k
        · subst hk
          rw [if_pos rfl, hm] at hkj
          simp only [Option.map_some'] at hkj
          obtain ⟨h1, h2, h3⟩ := hInv.jobsOK jobId job hm
          have hj := (Option.some.inj hkj).symm
          subst hj
          refine ⟨h1, h2, ?_⟩
          intro hmax
          obtain ⟨ha, hb⟩ := h3 hmax
          refine ⟨ha, ?_⟩
          intro hc
          rcases hc with hc | hc <;> exact absurd hc (by simp)
        · rw [if_neg hk] at hkj
          exact hInv.jobsOK k j2 hkj
      have hstat : ∀ id2, ¬ jobId = id2 →
          statusOf (updateJob s.jobs jobId (fun j =>
            { j with status := .failed, error := some cancelMessage, updatedAt := s.now })) id2 =
            statusOf s.jobs id2 := by
        intro id2 hne
        rw [statusOf, statusOf, mlookup_updateJob, if_neg hne]
      by_cases hmem : jobId ∈ s.pendingQueue
      · have heq : (cancelJob s jobId).2 =
            updateQueuePositions
              { s with
                jobs := updateJob s.jobs jobId (fun j =>
                  { j with status := .failed, error := some cancelMessage,
                           updatedAt := s.now }),
                pendingQueue := s.pendingQueue.erase jobId } := by
          unfold cancelJob
          simp only [hm]
          rw [if_pos hst, if_pos hmem]
        rw [heq]
        apply inv_of_preInv
        refine ⟨?_, hInv.dlKeysNodup, ?_, hInv.processingNodup, hInv.processingBound,
          ?_, ?_, hok, ?_, hInv.dlBound⟩
        · rw [keys_updateJob]
          exact hInv.jobsKeysNodup
        · exact hInv.pendingNodup.erase _
        · intro id hid
          have hidmem := hInv.pendingNodup.mem_erase_iff.mp hid
          have hne : ¬ jobId = id := fun hc => hidmem.1 hc.symm
          rw [hstat id hne]
          exact hInv.pendingStatus id hidmem.2
        · intro id hid
          have hne : ¬ jobId = id := fun hc => hnp (hc ▸ hid)
          rw [hstat id hne]
          exact hInv.processingStatus id hid
        · intro k j2 hkj
          obtain ⟨h1, h2, h3, h4, h5, h6, h7⟩ := hInv.dlOK k j2 hkj
          have hne := hdlne k j2 hkj
          refine ⟨h1, h2, h3, h4, ?_, h6, ?_⟩
          · intro hc
            exact h5 ((List.erase_subset _ _) hc)
          · rw [hstat k hne]
            exact h7
      · have heq : (cancelJob s jobId).2 =
            { s with
              jobs := updateJob s.jobs jobId (fun j =>
                { j with status := .failed, error := some cancelMessage,
                         updatedAt := s.now }) } := by
          unfold cancelJob
          simp only [hm]
          rw [if_pos hst, if_neg hmem]
        rw [heq]
        refine ⟨?_, hInv.dlKeysNodup, hInv.pendingNodup, hInv.processingNodup,
          hInv.processingBound, ?_, ?_, hok, ?_, hInv.dlBound, ?_⟩
        · rw [keys_updateJob]
          exact hInv.jobsKeysNodup
        · intro id hid
          have hne : ¬ jobId = id := fun hc => hmem (hc ▸ hid)
          rw [hstat id hne]
          exact hInv.pendingStatus id hid
        · intro id hid
          have hne : ¬ jobId = id := fun hc => hnp (hc ▸ hid)
          rw [hstat id hne]
          exact hInv.processingStatus id hid
        · intro k j2 hkj
          obtain ⟨h1, h2, h3, h4, h5, h6, h7⟩ := hInv.dlOK k j2 hkj
          have hne := hdlne k j2 hkj
          refine ⟨h1, h2, h3, h4, h5, h6, ?_⟩
          rw [hstat k hne]
          exact h7
        · intro i hi
          obtain ⟨j2, hj2, hpos⟩ := hInv.positions i hi
          have hmm : s.pendingQueue.get ⟨i, hi⟩ ∈ s.pendingQueue := List.get_mem _ _ _
          have hne : ¬ jobId = s.pendingQueue.get ⟨i, hi⟩ := fun hc => hmem (hc ▸ hmm)
          refine ⟨j2, ?_, hpos⟩
          rw [mlookup_updateJob, if_neg hne]
          exact hj2
    · have heq : cancelJob s jobId = (false, s) := by
        unfold cancelJob
        simp only [hm]
        rw [if_neg hst]
      rw [heq]
      exact hInv

theorem inv_retryReentry (s : QueueState) (jobId : Nat) (hInv : Inv s) :
    Inv (retryReentry s jobId) := by
  cases hm : mlookup s.jobs jobId with
  | none =>
    have heq : retryReentry s jobId = s := by
      unfold retryReentry
      rw [hm]
    rw [heq]
    exact hInv
  | some job =>
    by_cases hst : job.status = JobStatus.retrying
    · have hnpend : jobId ∉ s.pendingQueue := by
        intro hc
        obtain ⟨j2, hj2, hs2⟩ := statusOf_some _ _ _ (hInv.pendingStatus jobId hc)
        rw [hm] at hj2
        injection hj2 with h
        rw [← h, hst] at hs2
        exact absurd hs2 (by simp)
      have hnproc : jobId ∉ s.processingJobs := by
        intro hc
        obtain ⟨j2, hj2, hs2⟩ := statusOf_some _ _ _ (hInv.processingStatus jobId hc)
        rw [hm] at hj2
        injection hj2 with h
        rw [← h, hst] at hs2
        exact absurd hs2 (by simp)
      have hdlne : ∀ k j2, mlookup s.deadLetterQueue k = some j2 → ¬ jobId = k := by
        intro k j2 hk hc
        obtain ⟨_, _, _, _, _, _, h7⟩ := hInv.dlOK k j2 hk
        rw [← hc] at h7
        rcases h7 with h7 | h7 <;> rw [statusOf, hm] at h7 <;> simp at h7
        rw [hst] at h7
        exact absurd h7 (by simp)
      have heq : retryReentry s jobId =
          updateQueuePositions
            { s with
              jobs := updateJob s.jobs jobId (fun j => { j with status := .pending }),
              pendingQueue := s.pendingQueue ++ [jobId] } := by
        unfold retryReentry
        simp only [hm]
        rw [if_pos hst]
      rw [heq]
      apply inv_of_preInv
      refine ⟨?_, hInv.dlKeysNodup, ?_, hInv.processingNodup, hInv.processingBound,
        ?_, ?_, ?_, ?_, hInv.dlBound⟩
      · rw [keys_updateJob]
        exact hInv.jobsKeysNodup
      · rw [List.nodup_append]
        refine ⟨hInv.pendingNodup, List.nodup_singleton _, ?_⟩
        intro a ha hb
        simp only [List.mem_singleton] at hb
        subst hb
        exact hnpend ha
      · intro id hid
        rcases List.mem_append.mp hid with hid | hid
        · have hne : ¬ jobId = id := fun hc => hnpend (hc ▸ hid)
          rw [statusOf, mlookup_updateJob, if_neg hne]
          exact hInv.pendingStatus id hid
        · simp only [List.mem_singleton] at hid
          subst hid
          rw [statusOf, mlookup_updateJob, if_pos rfl, hm]
          rfl
      · intro id hid
        have hne : ¬ jobId = id := fun hc => hnproc (hc ▸ hid)
        rw [statusOf, mlookup_updateJob, if_neg hne]
        exact hInv.processingStatus id hid
      · intro k j2 hkj
        rw [mlookup_updateJob] at hkj
        by_cases hk : jobId = k
        · subst hk
          rw [if_pos rfl, hm] at hkj
          simp only [Option.map_some'] at hkj
          obtain ⟨h1, h2, h3⟩ := hInv.jobsOK jobId job hm
          have hj := (Option.some.inj hkj).symm
          subst hj
          refine ⟨h1, h2, ?_⟩
          intro hmax
          obtain ⟨ha, hb⟩ := h3 hmax
          have hlt : job.attempts < job.maxAttempts := hb (Or.inr hst)
          exact ⟨ha, fun _ => hlt⟩
        · rw [if_neg hk] at hkj
          exact hInv.jobsOK k j2 hkj
      · intro k j2 hkj
        obtain ⟨h1, h2, h3, h4, h5, h6, h7⟩ := hInv.dlOK k j2 hkj
        have hne := hdlne k j2 hkj
        refine ⟨h1, h2, h3, h4, ?_, h6, ?_⟩
        · intro hc
          rcases List.mem_append.mp hc with hc | hc
          · exact h5 hc
          · simp only [List.mem_singleton] at hc
            exact hne hc.symm
        · rw [statusOf, mlookup_updateJob, if_neg hne]
          exact h7
    · have heq : retryReentry s jobId = s := by
        unfold retryReentry
        simp only [hm]
        rw [if_neg hst]
      rw [heq]
      exact hInv

theorem inv_failJob (s : QueueState) (jobId : Nat) (message : String)
    (hin : jobId ∈ s.processingJobs) (hInv : Inv s) :
    Inv (failJob s jobId message) := by
  obtain ⟨job0, hm, hst0⟩ := statusOf_some _ _ _ (hInv.processingStatus jobId hin)
  obtain ⟨hfr0, hid0, hat0⟩ := hInv.jobsOK jobId job0 hm
  have hjid : jobId ∉ s.pendingQueue := fun hc =>
    pending_not_processing s hInv.pendingStatus hInv.processingStatus jobId hc hin
  have hdlfresh : mlookup s.deadLetterQueue jobId = none := by
    cases hdl : mlookup s.deadLetterQueue jobId with
    | none => rfl
    | some j2 =>
      obtain ⟨_, _, _, _, _, h6, _⟩ := hInv.dlOK jobId j2 hdl
      exact absurd hin h6
  have hdlne : ∀ k j2, mlookup s.deadLetterQueue k = some j2 → ¬ jobId = k := by
    intro k j2 hk hc
    rw [← hc] at hk
    rw [hdlfresh] at hk
    exact absurd hk (by simp)
  by_cases hcond :
      (!(isRetryableError message) || decide (job0.maxAttempts ≤ job0.attempts)) = true
  · -- permanent failure: dead-letter branch
    have heq : failJob s jobId message =
        { s with
          jobs := updateJob s.jobs jobId (fun j =>
            { j with error := some (categorizeError message), status := .failed,
                     updatedAt := s.now }),
          deadLetterQueue := moveToDeadLetterQueue s.deadLetterQueue
            { job0 with error := some (categorizeError message), status := .failed,
                        updatedAt := s.now } s.now,
          processingJobs := s.processingJobs.erase jobId } := by
      unfold failJob
      simp only [hm]
      rw [if_pos hcond]
    rw [heq]
    have hdjid : ({ job0 with error := some (categorizeError message),
                              status := JobStatus.failed,
                              updatedAt := s.now } : QueueJob).id = jobId := hid0
    have hdlfresh2 : mlookup s.deadLetterQueue
        ({ job0 with error := some (categorizeError message),
                     status := JobStatus.failed,
                     updatedAt := s.now } : QueueJob).id = none := by
      rw [hdjid]
      exact hdlfresh
    refine ⟨?_, ?_, hInv.pendingNodup, ?_, ?_, ?_, ?_, ?_, ?_, ?_, ?_⟩
    · rw [keys_updateJob]
      exact hInv.jobsKeysNodup
    · exact keys_moveToDeadLetterQueue_nodup _ _ _ hdlfresh2 hInv.dlKeysNodup hInv.dlBound
    · exact hInv.processingNodup.erase _
    · exact le_trans (List.erase_sublist _ _).length_le hInv.processingBound
    · intro id hid
      have hne : ¬ jobId = id := fun hc => hjid (hc ▸ hid)
      rw [statusOf, mlookup_updateJob, if_neg hne]
      exact hInv.pendingStatus id hid
    · intro id hid
      have hidmem := hInv.processingNodup.mem_erase_iff.mp hid
      have hne : ¬ jobId = id := fun hc => hidmem.1 hc.symm
      rw [statusOf, mlookup_updateJob, if_neg hne]
      exact hInv.processingStatus id hidmem.2
    · intro k j hkj
      rw [mlookup_updateJob] at hkj
      by_cases hk : jobId = k
      · subst hk
        rw [if_pos rfl, hm] at hkj
        simp only [Option.map_some'] at hkj
        have hj := (Option.some.inj hkj).symm
        subst hj
        refine ⟨hfr0, hid0, ?_⟩
        intro hmax
        obtain ⟨ha, _⟩ := hat0 hmax
        refine ⟨ha, ?_⟩
        intro hc
        rcases hc with hc | hc <;> exact absurd hc (by simp)
      · rw [if_neg hk] at hkj
        exact hInv.jobsOK k j hkj
    · intro k j hkj
      rcases mlookup_moveToDeadLetterQueue _ _ _ _ hdlfresh2 hInv.dlKeysNodup
          hInv.dlBound j hkj with ⟨hk, hj⟩ | hold
      · rw [hdjid] at hk
        subst hk
        subst hj
        refine ⟨hfr0, hid0, rfl, ?_, hjid, ?_, ?_⟩
        · intro hmax
          obtain ⟨ha, _⟩ := hat0 hmax
          refine ⟨ha, ?_⟩
          intro hc
          rcases hc with hc | hc <;> exact absurd hc (by simp [deadEntry])
        · intro hc
          exact ((hInv.processingNodup.mem_erase_iff.mp hc).1) rfl
        · left
          rw [statusOf, mlookup_updateJob, if_pos rfl, hm]
          rfl
      · obtain ⟨h1, h2, h3, h4, h5, h6, h7⟩ := hInv.dlOK k j hold
        have hne := hdlne k j hold
        refine ⟨h1, h2, h3, h4, h5, ?_, ?_⟩
        · intro hc
          exact h6 ((List.erase_subset _ _) hc)
        · rw [statusOf, mlookup_updateJob, if_neg hne]
          exact h7
    · exact moveToDeadLetterQueue_length _ _ _ hdlfresh2 hInv.dlKeysNodup hInv.dlBound
    · intro i hi
      obtain ⟨j, hj, hpos⟩ := hInv.positions i hi
      have hmm : s.pendingQueue.get ⟨i, hi⟩ ∈ s.pendingQueue := List.get_mem _ _ _
      have hne : ¬ jobId = s.pendingQueue.get ⟨i, hi⟩ := fun hc => hjid (hc ▸ hmm)
      refine ⟨j, ?_, hpos⟩
      rw [mlookup_updateJob, if_neg hne]
      exact hj
  · -- retryable failure: the job becomes `retrying`
    have hlt : job0.attempts < job0.maxAttempts := by
      by_contra hc
      apply hcond
      have hle : job0.maxAttempts ≤ job0.attempts := Nat.le_of_not_lt hc
      simp [hle]
    have heq : failJob s jobId message =
        { s with
          jobs := updateJob s.jobs jobId (fun j =>
            { j with error := some (categorizeError message), status := .retrying,
                     updatedAt := s.now }),
          processingJobs := s.processingJobs.erase jobId } := by
      unfold failJob
      simp only [hm]
      rw [if_neg hcond]
    rw [heq]
    refine ⟨?_, hInv.dlKeysNodup, hInv.pendingNodup, ?_, ?_, ?_, ?_, ?_, ?_,
      hInv.dlBound, ?_⟩
    · rw [keys_updateJob]
      exact hInv.jobsKeysNodup
    · exact hInv.processingNodup.erase _
    · exact le_trans (List.erase_sublist _ _).length_le hInv.processingBound
    · intro id hid
      have hne : ¬ jobId = id := fun hc => hjid (hc ▸ hid)
      rw [statusOf, mlookup_updateJob, if_neg hne]
      exact hInv.pendingStatus id hid
    · intro id hid
      have hidmem := hInv.processingNodup.mem_erase_iff.mp hid
      have hne : ¬ jobId = id := fun hc => hidmem.1 hc.symm
      rw [statusOf, mlookup_updateJob, if_neg hne]
      exact hInv.processingStatus id hidmem.2
    · intro k j hkj
      rw [mlookup_updateJob] at hkj
      by_cases hk : jobId = k
      · subst hk
        rw [if_pos rfl, hm] at hkj
        simp only [Option.map_some'] at hkj
        have hj := (Option.some.inj hkj).symm
        subst hj
        refine ⟨hfr0, hid0, ?_⟩
        intro hmax
        obtain ⟨ha, _⟩ := hat0 hmax
        exact ⟨ha, fun _ => hlt⟩
      · rw [if_neg hk] at hkj
        exact hInv.jobsOK k j hkj
    · intro k j hkj
      obtain ⟨h1, h2, h3, h4, h5, h6, h7⟩ := hInv.dlOK k j hkj
      have hne := hdlne k j hkj
      refine ⟨h1, h2, h3, h4, h5, ?_, ?_⟩
      · intro hc
        exact h6 ((List.erase_subset _ _) hc)
      · rw [statusOf, mlookup_updateJob, if_neg hne]
        exact h7
    · intro i hi
      obtain ⟨j, hj, hpos⟩ := hInv.positions i hi
      have hmm : s.pendingQueue.get ⟨i, hi⟩ ∈ s.pendingQueue := List.get_mem _ _ _
      have hne : ¬ jobId = s.pendingQueue.get ⟨i, hi⟩ := fun hc => hjid (hc ▸ hmm)
      refine ⟨j, ?_, hpos⟩
      rw [mlookup_updateJob, if_neg hne]
      exact hj

theorem inv_addJob (s : QueueState) (jd : NewJobData) (hInv : Inv s) :
    Inv (addJob s jd).2 := by
  have hfresh : mlookup s.jobs s.nextId = none := by
    cases hm : mlookup s.jobs s.nextId with
    | none => rfl
    | some j =>
      obtain ⟨h1, _, _⟩ := hInv.jobsOK s.nextId j hm
      exact absurd h1 (Nat.lt_irrefl _)
  have hnp : s.nextId ∉ s.pendingQueue := by
    intro hc
    obtain ⟨j, hj, _⟩ := statusOf_some _ _ _ (hInv.pendingStatus _ hc)
    rw [hfresh] at hj
    exact absurd hj (by simp)
  have hnproc : s.nextId ∉ s.processingJobs := by
    intro hc
    obtain ⟨j, hj, _⟩ := statusOf_some _ _ _ (hInv.processingStatus _ hc)
    rw [hfresh] at hj
    exact absurd hj (by simp)
  have hnkeys : s.nextId ∉ s.jobs.map Prod.fst := (mlookup_eq_none_iff _ _).mp hfresh
  have heq : (addJob s jd).2 =
      updateQueuePositions
        { s with
          jobs := s.jobs ++ [(s.nextId, mkJob s jd)],
          pendingQueue := s.pendingQueue ++ [s.nextId],
          nextId := s.nextId + 1 } := by
    show updateQueuePositions
        { s with
          jobs := mapSet s.jobs s.nextId (mkJob s jd),
          pendingQueue := s.pendingQueue ++ [s.nextId],
          nextId := s.nextId + 1 } = _
    rw [mapSet_of_none _ _ _ hfresh]
  rw [heq]
  apply inv_of_preInv
  refine ⟨?_, hInv.dlKeysNodup, ?_, hInv.processingNodup, hInv.processingBound,
    ?_, ?_, ?_, ?_, hInv.dlBound⟩
  · rw [List.map_append, List.nodup_append]
    refine ⟨hInv.jobsKeysNodup, List.nodup_singleton _, ?_⟩
    intro a ha hb
    simp only [List.map_cons, List.map_nil, List.mem_singleton] at hb
    subst hb
    exact hnkeys ha
  · rw [List.nodup_append]
    refine ⟨hInv.pendingNodup, List.nodup_singleton _, ?_⟩
    intro a ha hb
    simp only [List.mem_singleton] at hb
    subst hb
    exact hnp ha
  · intro id hid
    rcases List.mem_append.mp hid with hid | hid
    · obtain ⟨j, hj, hstj⟩ := statusOf_some _ _ _ (hInv.pendingStatus id hid)
      rw [statusOf, mlookup_append_of_some _ _ _ _ hj]
      simp [hstj]
    · simp only [List.mem_singleton] at hid
      subst hid
      rw [statusOf, mlookup_append_of_none _ _ _ hfresh, mlookup_cons, if_pos rfl]
      rfl
  · intro id hid
    obtain ⟨j, hj, hstj⟩ := statusOf_some _ _ _ (hInv.processingStatus id hid)
    rw [statusOf, mlookup_append_of_some _ _ _ _ hj]
    simp [hstj]
  · intro k j hkj
    cases hm0 : mlookup s.jobs k with
    | some j0 =>
      rw [mlookup_append_of_some _ _ _ _ hm0] at hkj
      have hj : j = j0 := (Option.some.inj hkj).symm
      subst hj
      obtain ⟨h1, h2, h3⟩ := hInv.jobsOK k j hm0
      exact ⟨Nat.lt_succ_of_lt h1, h2, h3⟩
    | none =>
      rw [mlookup_append_of_none _ _ _ hm0, mlookup_cons] at hkj
      by_cases hk : s.nextId = k
      · rw [if_pos hk] at hkj
        have hj := (Option.some.inj hkj).symm
        subst hj
        subst hk
        refine ⟨Nat.lt_succ_self _, rfl, ?_⟩
        intro hmax
        exact ⟨Nat.zero_le _, fun _ => hmax⟩
      · rw [if_neg hk] at hkj
        exact absurd hkj (by simp [mlookup])
  · intro k j hkj
    obtain ⟨h1, h2, h3, h4, h5, h6, h7⟩ := hInv.dlOK k j hkj
    have hkne : ¬ s.nextId = k := fun hc => Nat.lt_irrefl k (hc ▸ h1)
    refine ⟨Nat.lt_succ_of_lt h1, h2, h3, h4, ?_, h6, ?_⟩
    · intro hc
      rcases List.mem_append.mp hc with hc | hc
      · exact h5 hc
      · simp only [List.mem_singleton] at hc
        exact hkne hc.symm
    · rcases h7 with h7 | h7
      · obtain ⟨v, hv, hstv⟩ := statusOf_some _ _ _ h7
        left
        rw [statusOf, mlookup_append_of_some _ _ _ _ hv]
        simp [hstv]
      · right
        have hvnone : mlookup s.jobs k = none := by
          unfold statusOf at h7
          cases hm0 : mlookup s.jobs k with
          | none => rfl
          | some v => rw [hm0] at h7; simp at h7
        rw [statusOf, mlookup_append_of_none _ _ _ hvnone, mlookup_cons, if_neg hkne]
        rfl

theorem inv_retryFailedJob (s : QueueState) (jobId : Nat) (hInv : Inv s) :
    Inv (retryFailedJob s jobId).2 := by
  cases hdl : mlookup s.deadLetterQueue jobId with
  | none =>
    have heq : retryFailedJob s jobId = (false, s) := by
      unfold retryFailedJob
      rw [hdl]
    rw [heq]
    exact hInv
  | some failedJob =>
    have hfresh : mlookup s.jobs s.nextId = none := by
      cases hm : mlookup s.jobs s.nextId with
      | none => rfl
      | some j =>
        obtain ⟨h1, _, _⟩ := hInv.jobsOK s.nextId j hm
        exact absurd h1 (Nat.lt_irrefl _)
    have hnp : s.nextId ∉ s.pendingQueue := by
      intro hc
      obtain ⟨j, hj, _⟩ := statusOf_some _ _ _ (hInv.pendingStatus _ hc)
      rw [hfresh] at hj
      exact absurd hj (by simp)
    have hnkeys : s.nextId ∉ s.jobs.map Prod.fst := (mlookup_eq_none_iff _ _).mp hfresh
    have heq : (retryFailedJob s jobId).2 =
        updateQueuePositions
          { s with
            jobs := s.jobs ++
              [(s.nextId, { failedJob with
                            id := s.nextId, status := .pending, attempts := 0,
                            createdAt := s.now, updatedAt := s.now, error := none,
                            processedAt := none, completedAt := none,
                            transactionHash := none })],
            pendingQueue := s.pendingQueue ++ [s.nextId],
            deadLetterQueue := mapDelete s.deadLetterQueue jobId,
            nextId := s.nextId + 1 } := by
      unfold retryFailedJob
      simp only [hdl]
      rw [mapSet_of_none _ _ _ hfresh]
    rw [heq]
    apply inv_of_preInv
    have hdlchar : ∀ k j, mlookup (mapDelete s.deadLetterQueue jobId) k = some j →
        mlookup s.deadLetterQueue k = some j := by
      intro k j hkj
      rw [mapDelete, mlookup_filter _ _ _ hInv.dlKeysNodup] at hkj
      cases hm0 : mlookup s.deadLetterQueue k with
      | none => rw [hm0] at hkj; simp at hkj
      | some v =>
        rw [hm0] at hkj
        by_cases hp : k = jobId
        · subst hp
          simp at hkj
        · simp [hp] at hkj
          rw [hkj]
    refine ⟨?_, ?_, ?_, hInv.processingNodup, hInv.processingBound, ?_, ?_, ?_, ?_, ?_⟩
    · rw [List.map_append, List.nodup_append]
      refine ⟨hInv.jobsKeysNodup, List.nodup_singleton _, ?_⟩
      intro a ha hb
      simp only [List.map_cons, List.map_nil, List.mem_singleton] at hb
      subst hb
      exact hnkeys ha
    · exact hInv.dlKeysNodup.sublist (keys_filter_sublist _ _)
    · rw [List.nodup_append]
      refine ⟨hInv.pendingNodup, List.nodup_singleton _, ?_⟩
      intro a ha hb
      simp only [List.mem_singleton] at hb
      subst hb
      exact hnp ha
    · intro id hid
      rcases List.mem_append.mp hid with hid | hid
      · obtain ⟨j, hj, hstj⟩ := statusOf_some _ _ _ (hInv.pendingStatus id hid)
        rw [statusOf, mlookup_append_of_some _ _ _ _ hj]
        simp [hstj]
      · simp only [List.mem_singleton] at hid
        subst hid
        rw [statusOf, mlookup_append_of_none _ _ _ hfresh, mlookup_cons, if_pos rfl]
        rfl
    · intro id hid
      obtain ⟨j, hj, hstj⟩ := statusOf_some _ _ _ (hInv.processingStatus id hid)
      rw [statusOf, mlookup_append_of_some _ _ _ _ hj]
      simp [hstj]
    · intro k j hkj
      cases hm0 : mlookup s.jobs k with
      | some j0 =>
        rw [mlookup_append_of_some _ _ _ _ hm0] at hkj
        have hj : j = j0 := (Option.some.inj hkj).symm
        subst hj
        obtain ⟨h1, h2, h3⟩ := hInv.jobsOK k j hm0
        exact ⟨Nat.lt_succ_of_lt h1, h2, h3⟩
      | none =>
        rw [mlookup_append_of_none _ _ _ hm0, mlookup_cons] at hkj
        by_cases hk : s.nextId = k
        · rw [if_pos hk] at hkj
          have hj := (Option.some.inj hkj).symm
          subst hj
          subst hk
          refine ⟨Nat.lt_succ_self _, rfl, ?_⟩
          intro hmax
          exact ⟨Nat.zero_le _, fun _ => hmax⟩
        · rw [if_neg hk] at hkj
          exact absurd hkj (by simp [mlookup])
    · intro k j hkj
      have hold := hdlchar k j hkj
      obtain ⟨h1, h2, h3, h4, h5, h6, h7⟩ := hInv.dlOK k j hold
      have hkne : ¬ s.nextId = k := fun hc => Nat.lt_irrefl k (hc ▸ h1)
      refine ⟨Nat.lt_succ_of_lt h1, h2, h3, h4, ?_, h6, ?_⟩
      · intro hc
        rcases List.mem_append.mp hc with hc | hc
        · exact h5 hc
        · simp only [List.mem_singleton] at hc
          exact hkne hc.symm
      · rcases h7 with h7 | h7
        · obtain ⟨v, hv, hstv⟩ := statusOf_some _ _ _ h7
          left
          rw [statusOf, mlookup_append_of_some _ _ _ _ hv]
          simp [hstv]
        · right
          have hvnone : mlookup s.jobs k = none := by
            unfold statusOf at h7
            cases hm0 : mlookup s.jobs k with
            | none => rfl
            | some v => rw [hm0] at h7; simp at h7
          rw [statusOf, mlookup_append_of_none _ _ _ hvnone, mlookup_cons, if_neg hkne]
          rfl
    · exact le_trans (List.length_filter_le _ _) hInv.dlBound

theorem inv_processNextJobs (s : QueueState) (hInv : Inv s) :
    Inv (processNextJobs s) := by
  by_cases hfull : maxConcurrentJobs ≤ s.processingJobs.length
  · have heq : processNextJobs s = s := by
      unfold processNextJobs
      rw [if_pos hfull]
    rw [heq]
    exact hInv
  · have hltn : s.processingJobs.length < maxConcurrentJobs := Nat.lt_of_not_le hfull
    set sorted := sortByLt (jobLt s.jobs) s.pendingQueue with hsorted
    set kk := maxConcurrentJobs - s.processingJobs.length with hkk
    have heq : processNextJobs s =
        updateQueuePositions (List.foldl processJobStart
          { s with pendingQueue := sorted.drop kk } (sorted.take kk)) := by
      unfold processNextJobs
      rw [if_neg hfull]
    rw [heq]
    have hperm : List.Perm sorted s.pendingQueue := sortByLt_perm _ _
    have hsortnd : sorted.Nodup := hperm.nodup_iff.mpr hInv.pendingNodup
    have hnd2 : (sorted.take kk ++ sorted.drop kk).Nodup := by
      rw [List.take_append_drop]
      exact hsortnd
    have hselnd : (sorted.take kk).Nodup := hnd2.of_append_left
    have hrestnd : (sorted.drop kk).Nodup := hnd2.of_append_right
    have hdisjtd : List.Disjoint (sorted.take kk) (sorted.drop kk) :=
      List.disjoint_of_nodup_append hnd2
    have hselmem : ∀ id ∈ sorted.take kk, id ∈ s.pendingQueue := fun id h =>
      hperm.mem_iff.mp (List.take_subset _ _ h)
    have hrestmem : ∀ id ∈ sorted.drop kk, id ∈ s.pendingQueue := fun id h =>
      hperm.mem_iff.mp (List.drop_subset _ _ h)
    have hseldisj : ∀ id ∈ sorted.take kk, id ∉ s.processingJobs := fun id h =>
      pending_not_processing s hInv.pendingStatus hInv.processingStatus id (hselmem id h)
    obtain ⟨f1, f2, f3, f4, f5, f6, f7, f8⟩ :=
      foldl_processJobStart_char (sorted.take kk)
        { s with pendingQueue := sorted.drop kk } hseldisj hselnd
    have g1 : (List.foldl processJobStart { s with pendingQueue := sorted.drop kk }
        (sorted.take kk)).pendingQueue = sorted.drop kk := f1
    have g2 : (List.foldl processJobStart { s with pendingQueue := sorted.drop kk }
        (sorted.take kk)).deadLetterQueue = s.deadLetterQueue := f2
    have g3 : (List.foldl processJobStart { s with pendingQueue := sorted.drop kk }
        (sorted.take kk)).nextId = s.nextId := f3
    have g5 : (List.foldl processJobStart { s with pendingQueue := sorted.drop kk }
        (sorted.take kk)).processingJobs = s.processingJobs ++ sorted.take kk := f5
    have g6 : ∀ k, k ∉ sorted.take kk →
        mlookup (List.foldl processJobStart { s with pendingQueue := sorted.drop kk }
          (sorted.take kk)).jobs k = mlookup s.jobs k := f6
    have g7 : ∀ k, k ∈ sorted.take kk →
        mlookup (List.foldl processJobStart { s with pendingQueue := sorted.drop kk }
          (sorted.take kk)).jobs k = (mlookup s.jobs k).map (startJobF s.now) := f7
    have g8 : (List.foldl processJobStart { s with pendingQueue := sorted.drop kk }
        (sorted.take kk)).jobs.map Prod.fst = s.jobs.map Prod.fst := f8
    apply inv_of_preInv
    refine ⟨?_, ?_, ?_, ?_, ?_, ?_, ?_, ?_, ?_, ?_⟩
    · rw [g8]
      exact hInv.jobsKeysNodup
    · rw [g2]
      exact hInv.dlKeysNodup
    · rw [g1]
      exact hrestnd
    · rw [g5]
      exact List.Nodup.append hInv.processingNodup hselnd
        (fun a ha hb => hseldisj a hb ha)
    · rw [g5, List.length_append]
      have hsel_le : (sorted.take kk).length ≤ kk := by
        rw [List.length_take]
        exact Nat.min_le_left _ _
      have hmax3 : maxConcurrentJobs = 3 := rfl
      omega
    · rw [g1]
      intro id hid
      have hnotsel : id ∉ sorted.take kk := fun hc => hdisjtd hc hid
      rw [statusOf, g6 id hnotsel]
      exact hInv.pendingStatus id (hrestmem id hid)
    · rw [g5]
      intro id hid
      rcases List.mem_append.mp hid with hid | hid
      · have hnotsel : id ∉ sorted.take kk := fun hc => hseldisj id hc hid
        rw [statusOf, g6 id hnotsel]
        exact hInv.processingStatus id hid
      · obtain ⟨j0, hj0, hstj0⟩ :=
          statusOf_some _ _ _ (hInv.pendingStatus id (hselmem id hid))
        rw [statusOf, g7 id hid, hj0]
        rfl
    · intro k j hkj
      rw [g3]
      by_cases hk : k ∈ sorted.take kk
      · rw [g7 k hk] at hkj
        obtain ⟨j0, hj0, hstj0⟩ :=
          statusOf_some _ _ _ (hInv.pendingStatus k (hselmem k hk))
        rw [hj0] at hkj
        simp only [Option.map_some'] at hkj
        have hj := (Option.some.inj hkj).symm
        subst hj
        obtain ⟨h1, h2, h3⟩ := hInv.jobsOK k j0 hj0
        refine ⟨h1, h2, ?_⟩
        intro hmax
        obtain ⟨ha, hb⟩ := h3 hmax
        have hltj : j0.attempts < j0.maxAttempts := hb (Or.inl hstj0)
        constructor
        · show j0.attempts + 1 ≤ j0.maxAttempts
          omega
        · intro hc
          rcases hc with hc | hc <;> exact absurd hc (by simp [startJobF])
      · rw [g6 k hk] at hkj
        exact hInv.jobsOK k j hkj
    · intro k j hkj
      rw [g2] at hkj
      obtain ⟨h1, h2, h3, h4, h5, h6, h7⟩ := hInv.dlOK k j hkj
      have hksel : k ∉ sorted.take kk := fun hc => h5 (hselmem k hc)
      refine ⟨?_, h2, h3, h4, ?_, ?_, ?_⟩
      · rw [g3]
        exact h1
      · rw [g1]
        intro hc
        exact h5 (hrestmem k hc)
      · rw [g5]
        intro hc
        rcases List.mem_append.mp hc with hc | hc
        · exact h6 hc
        · exact hksel hc
      · rw [statusOf, g6 k hksel]
        exact h7
    · rw [g2]
      exact hInv.dlBound

theorem inv_init : Inv initState := by
  refine ⟨?_, ?_, ?_, ?_, ?_, ?_, ?_, ?_, ?_, ?_, ?_⟩
  · simp [initState]
  · simp [initState]
  · simp [initState]
  · simp [initState]
  · simp [initState, maxConcurrentJobs]
  · intro id hid
    simp [initState] at hid
  · intro id hid
    simp [initState] at hid
  · intro k j h
    simp [initState, mlookup] at h
  · intro k j h
    simp [initState, mlookup] at h
  · simp [initState, deadLetterCapacity]
  · intro i h
    simp [initState] at h

theorem inv_step (s s' : QueueState) (hInv : Inv s) (h : Step s s') : Inv s' := by
  cases h with
  | add jd => exact inv_addJob s jd hInv
  | dispatch => exact inv_processNextJobs s hInv
  | complete jobId txHash hin hval => exact inv_completeJob s jobId txHash hin hInv
  | fail jobId message hin hval => exact inv_failJob s jobId message hin hInv
  | reenter jobId => exact inv_retryReentry s jobId hInv
  | cancel jobId => exact inv_cancelJob s jobId hInv
  | cleanup => exact inv_cleanupOldJobs s hInv
  | replay jobId => exact inv_retryFailedJob s jobId hInv
  | tick d => exact inv_tick s d hInv

theorem reachable_inv (s : QueueState) (h : Reachable s) : Inv s := by
  induction h with
  | refl => exact inv_init
  | tail hsteps hstep ih => exact inv_step _ _ ih hstep

/-! ### Further projection helpers -/

theorem errorOf_updateQueuePositions (sm : QueueState) (k : Nat) :
    errorOf (updateQueuePositions sm).jobs k = errorOf sm.jobs k :=
  mlookup_map_updatePositionsFrom QueueJob.error (fun _ _ => rfl)
    sm.jobs sm.pendingQueue 0 k

theorem attemptsMap_updateQueuePositions (sm : QueueState) (k : Nat) :
    (mlookup (updateQueuePositions sm).jobs k).map QueueJob.attempts =
      (mlookup sm.jobs k).map QueueJob.attempts :=
  mlookup_map_updatePositionsFrom QueueJob.attempts (fun _ _ => rfl)
    sm.jobs sm.pendingQueue 0 k

theorem attemptsMap_updateJob (m : JobMap) (id : Nat) (f : QueueJob → QueueJob)
    (hf : ∀ j, (f j).attempts = j.attempts) (k : Nat) :
    (mlookup (updateJob m id f) k).map QueueJob.attempts =
      (mlookup m k).map QueueJob.attempts := by
  rw [mlookup_updateJob]
  by_cases h : id = k
  · rw [if_pos h]
    cases hm : mlookup m k with
    | none => rfl
    | some j => simp [hf]
  · rw [if_neg h]

theorem cancelJob_none (s : QueueState) (jobId : Nat)
    (hm : mlookup s.jobs jobId = none) : cancelJob s jobId = (false, s) := by
  unfold cancelJob
  rw [hm]

theorem cancelJob_not_pending (s : QueueState) (jobId : Nat) (job : QueueJob)
    (hm : mlookup s.jobs jobId = some job) (hst : ¬ job.status = JobStatus.pending) :
    cancelJob s jobId = (false, s) := by
  unfold cancelJob
  simp only [hm]
  rw [if_neg hst]

/-- Introduction helper for the failure step: a job whose payload passes
`validateJobData` can fail with an arbitrary executor message. -/
theorem step_fail_of_dataValid (s : QueueState) (jobId : Nat) (message : String)
    (hin : jobId ∈ s.processingJobs)
    (hv : ((mlookup s.jobs jobId).map
      (fun j => (validateJobData j).isNone)).getD true = true) :
    Step s (failJob s jobId message) := by
  refine Step.fail s jobId message hin ?_
  intro j v hj hvv
  rw [hj] at hv
  simp only [Option.map_some', Option.getD_some] at hv
  rw [hvv] at hv
  simp at hv

/-! ### Concrete fixtures used by witnesses and counterexamples -/

def goodAddr : String := "0xaaaaaaaaaaaaaaaaaaaaaaaaaaaaaaaaaaaaaaaa"

/-- A valid ETH claim submitted with priority 2. -/
def jdP2 : NewJobData :=
  { type := .ETH_CLAIM,
    data := { address := goodAddr, tokenAddress := none, amount := none,
              userAgent := none, timestamp := 0 },
    priority := 2, maxAttempts := 3 }

/-- A valid ETH claim submitted with priority 1. -/
def jdP1 : NewJobData :=
  { type := .ETH_CLAIM,
    data := { address := goodAddr, tokenAddress := none, amount := none,
              userAgent := none, timestamp := 0 },
    priority := 1, maxAttempts := 3 }

/-- An ETH claim whose recipient address fails the `0x`+40-hex-digit check. -/
def jdBad : NewJobData :=
  { type := .ETH_CLAIM,
    data := { address := "0xZZ", tokenAddress := none, amount := none,
              userAgent := none, timestamp := 0 },
    priority := 1, maxAttempts := 3 }

/-- One good pending job (id 0, priority 2). -/
def st1 : QueueState := (addJob initState jdP2).2

/-- `st1` plus a priority-1 job (id 1) added later. -/
def st2 : QueueState := (addJob st1 jdP1).2

/-- `st1` after one dispatch pass: job 0 is in flight with one attempt. -/
def stProc : QueueState := processNextJobs st1

/-- `stProc` after the executor fails with an insufficient-funds message. -/
def stDead : QueueState := failJob stProc 0 "insufficient funds for gas"

theorem reachable_init : Reachable initState := Relation.ReflTransGen.refl

theorem reachable_st1 : Reachable st1 :=
  Relation.ReflTransGen.tail reachable_init (Step.add initState jdP2)

theorem reachable_st2 : Reachable st2 :=
  Relation.ReflTransGen.tail reachable_st1 (Step.add st1 jdP1)

theorem reachable_stProc : Reachable stProc :=
  Relation.ReflTransGen.tail reachable_st1 (Step.dispatch st1)

theorem reachable_stDead : Reachable stDead :=
  Relation.ReflTransGen.tail reachable_stProc
    (step_fail_of_dataValid stProc 0 "insufficient funds for gas"
      (by decide) (by decide))

/-! ### C1 -/

/-- C1 counterexample: submitting a payload whose recipient address is not a
valid `0x`+40-hex-digit address is NOT rejected — `addJob` still returns a job
id (0), stores the job with status `pending`, and appends it to the pending
queue.  This refutes the claim that an `InvalidPayload` submission creates no
state and returns no id. -/
theorem c1_counterexample :
    isValidAddress jdBad.data.address = false ∧
    (addJob initState jdBad).1 = 0 ∧
    statusOf (addJob initState jdBad).2.jobs 0 = some JobStatus.pending ∧
    0 ∈ (addJob initState jdBad).2.pendingQueue := by
  refine ⟨by decide, by decide, by decide, by decide⟩

/-- C1 (amended): `addJob` performs no payload validation: for every payload
and every state (with an unused fresh id), submission returns the fresh id and
creates a `pending` job record that is stored and enqueued; payload-shape
validation is deferred to execution time, where `validateJobData` raises
"Invalid recipient address" for a malformed recipient inside `processJob`. -/
theorem c1_addJob_creates_state_unconditionally :
    ∀ (s : QueueState) (jd : NewJobData), mlookup s.jobs s.nextId = none →
      (addJob s jd).1 = s.nextId ∧
      statusOf (addJob s jd).2.jobs s.nextId = some JobStatus.pending ∧
      s.nextId ∈ (addJob s jd).2.pendingQueue ∧
      (isValidAddress jd.data.address = false →
        validateJobData (mkJob s jd) = some "Invalid recipient address") := by
  intro s jd hfresh
  refine ⟨rfl, ?_, ?_, ?_⟩
  · have h1 : statusOf (addJob s jd).2.jobs s.nextId =
        statusOf (mapSet s.jobs s.nextId (mkJob s jd)) s.nextId :=
      statusOf_updateQueuePositions
        { s with jobs := mapSet s.jobs s.nextId (mkJob s jd),
                 pendingQueue := s.pendingQueue ++ [s.nextId],
                 nextId := s.nextId + 1 } s.nextId
    rw [h1, statusOf, mapSet_of_none _ _ _ hfresh,
      mlookup_append_of_none _ _ _ hfresh, mlookup_cons, if_pos rfl]
    rfl
  · show s.nextId ∈ s.pendingQueue ++ [s.nextId]
    simp
  · intro hbad
    simp [validateJobData, mkJob, hbad]

/-- C1 witness: the amended theorem instantiated at the initial state and the
malformed payload. -/
theorem c1_witness :
    (addJob initState jdBad).1 = initState.nextId ∧
    statusOf (addJob initState jdBad).2.jobs initState.nextId =
      some JobStatus.pending ∧
    initState.nextId ∈ (addJob initState jdBad).2.pendingQueue ∧
    (isValidAddress jdBad.data.address = false →
      validateJobData (mkJob initState jdBad) = some "Invalid recipient address") :=
  c1_addJob_creates_state_unconditionally initState jdBad (by decide)

/-! ### C5 -/

/-- Modelled from the spec's words (section 4.2 / section 8): the pending jobs
in queue order. -/
def pendingJobsOf (s : QueueState) : List QueueJob :=
  s.pendingQueue.filterMap (fun id => mlookup s.jobs id)

/-- Modelled from the spec's words: the 1-based rank of a job among all
currently pending jobs, ordered by `(priority, createdAt)` lexicographically:
one plus the number of pending jobs strictly smaller in that order. -/
def rankByPriorityCreated (s : QueueState) (jobId : Nat) : Option Nat :=
  match mlookup s.jobs jobId with
  | none => none
  | some j => some (1 + (pendingJobsOf s).countP (fun k =>
      decide (k.priority < j.priority ∨
        (k.priority = j.priority ∧ k.createdAt < j.createdAt))))

/-- C5 counterexample: after a priority-2 job (id 0) and then a priority-1 job
(id 1) are added, job 1's stored `position` is 2 — its index in the insertion
order of the pending array — while its 1-based rank by `(priority, createdAt)`
is 1, because the array is only sorted at dispatch time, not on insertion. -/
theorem c5_counterexample :
    ((mlookup st2.jobs 1).map QueueJob.position) = some (some 2) ∧
    rankByPriorityCreated st2 1 = some 1 ∧
    ((mlookup st2.jobs 1).map QueueJob.position) ≠
      ((rankByPriorityCreated st2 1).map some) := by
  refine ⟨by decide, by decide, by decide⟩

/-- C5 (amended): in every reachable state, each pending job's stored
`position` equals its 1-based index in the pending array's current order
(insertion order between dispatch passes; the array is sorted by
`(priority, createdAt)` only at the start of a dispatch pass), recomputed by
`updateQueuePositions` after every insertion, removal or reordering. -/
theorem c5_position_is_array_index :
    ∀ s, Reachable s → ∀ i (h : i < s.pendingQueue.length),
      ∃ j, mlookup s.jobs (s.pendingQueue.get ⟨i, h⟩) = some j ∧
        j.position = some (i + 1) := by
  intro s hs
  exact (reachable_inv s hs).positions

/-- C5 witness: in `st2` the job at pending index 1 carries position 2. -/
theorem c5_witness :
    (mlookup st2.jobs (st2.pendingQueue.get ⟨1, by decide⟩)).map QueueJob.position =
      some (some 2) := by
  obtain ⟨j, hj, hp⟩ := c5_position_is_array_index st2 reachable_st2 1 (by decide)
  rw [hj, Option.map_some', hp]

/-! ### C6 -/

/-- C6 counterexample: a job is routinely a member of two holding structures
at once.  Right after submission, job 0 is both in the main job store and in
the pending queue; after being dead-lettered, job 0 is simultaneously in the
main job store (status `failed`) and in the dead-letter store. -/
theorem c6_counterexample :
    (mlookup st1.jobs 0).isSome = true ∧
    0 ∈ st1.pendingQueue ∧
    (mlookup stDead.jobs 0).isSome = true ∧
    (mlookup stDead.deadLetterQueue 0).isSome = true := by
  refine ⟨by decide, by decide, by decide, by decide⟩

/-- C6 (amended): the pending queue and the in-flight set are disjoint, and a
dead-lettered id belongs to neither; but the main jobs map overlaps them all:
it contains every pending and in-flight job, and a dead-lettered job stays in
it with status `failed` until a cleanup deletes it. -/
theorem c6_membership_discipline :
    ∀ s, Reachable s →
      (∀ id ∈ s.pendingQueue,
        id ∉ s.processingJobs ∧ (mlookup s.jobs id).isSome = true) ∧
      (∀ id ∈ s.processingJobs, (mlookup s.jobs id).isSome = true) ∧
      (∀ k j, mlookup s.deadLetterQueue k = some j →
        k ∉ s.pendingQueue ∧ k ∉ s.processingJobs ∧
        (statusOf s.jobs k = some JobStatus.failed ∨ statusOf s.jobs k = none)) := by
  intro s hs
  have hInv := reachable_inv s hs
  refine ⟨?_, ?_, ?_⟩
  · intro id hid
    refine ⟨pending_not_processing s hInv.pendingStatus hInv.processingStatus id hid, ?_⟩
    obtain ⟨j, hj, _⟩ := statusOf_some _ _ _ (hInv.pendingStatus id hid)
    rw [hj]
    rfl
  · intro id hid
    obtain ⟨j, hj, _⟩ := statusOf_some _ _ _ (hInv.processingStatus id hid)
    rw [hj]
    rfl
  · intro k j hkj
    obtain ⟨_, _, _, _, h5, h6, h7⟩ := hInv.dlOK k j hkj
    exact ⟨h5, h6, h7⟩

/-- C6 witness: the amended discipline instantiated at `st1` and id 0. -/
theorem c6_witness :
    (0 : Nat) ∉ st1.processingJobs ∧ (mlookup st1.jobs 0).isSome = true :=
  (c6_membership_discipline st1 reachable_st1).1 0 (by decide)

/-! ### C9 -/

/-- C9 counterexample: cancelling a pending job stores the error string
"Cancelled by user" — not "cancelled by caller" as the claim states. -/
theorem c9_counterexample :
    errorOf (cancelJob st1 0).2.jobs 0 = some (some "Cancelled by user") ∧
    some (some "Cancelled by user") ≠
      (some (some "cancelled by caller") : Option (Option String)) := by
  refine ⟨by decide, by decide⟩

/-- C9 (amended): cancelling a pending job succeeds: status becomes `failed`,
the error field is set to "Cancelled by user", and the job is removed from the
pending queue; cancelling the same id again, or cancelling a job in any
non-pending status (or an unknown id), returns false and leaves the state
unchanged. -/
theorem c9_cancel_semantics :
    (∀ s jobId, mlookup s.jobs jobId = none → cancelJob s jobId = (false, s)) ∧
    (∀ s jobId job, Reachable s → mlookup s.jobs jobId = some job →
      (job.status = JobStatus.pending →
        (cancelJob s jobId).1 = true ∧
        statusOf (cancelJob s jobId).2.jobs jobId = some JobStatus.failed ∧
        errorOf (cancelJob s jobId).2.jobs jobId = some (some cancelMessage) ∧
        jobId ∉ (cancelJob s jobId).2.pendingQueue ∧
        cancelJob (cancelJob s jobId).2 jobId = (false, (cancelJob s jobId).2)) ∧
      (¬ job.status = JobStatus.pending → cancelJob s jobId = (false, s))) := by
  refine ⟨cancelJob_none, ?_⟩
  intro s jobId job hreach hm
  have hInv := reachable_inv s hreach
  refine ⟨?_, fun hst => cancelJob_not_pending s jobId job hm hst⟩
  intro hst
  have hsecond : ∀ s2 : QueueState,
      statusOf s2.jobs jobId = some JobStatus.failed →
      cancelJob s2 jobId = (false, s2) := by
    intro s2 h2
    obtain ⟨j2, hj2, hsj2⟩ := statusOf_some _ _ _ h2
    exact cancelJob_not_pending s2 jobId j2 hj2 (by rw [hsj2]; simp)
  by_cases hmem : jobId ∈ s.pendingQueue
  · have heq : cancelJob s jobId =
        (true, updateQueuePositions
          { s with
            jobs := updateJob s.jobs jobId (fun j =>
              { j with status := .failed, error := some cancelMessage,
                       updatedAt := s.now }),
            pendingQueue := s.pendingQueue.erase jobId }) := by
      unfold cancelJob
      simp only [hm]
      rw [if_pos hst, if_pos hmem]
    rw [heq]
    have hstat : statusOf (updateQueuePositions
        { s with
          jobs := updateJob s.jobs jobId (fun j =>
            { j with status := .failed, error := some cancelMessage,
                     updatedAt := s.now }),
          pendingQueue := s.pendingQueue.erase jobId }).jobs jobId =
        some JobStatus.failed := by
      rw [statusOf_updateQueuePositions, statusOf, mlookup_updateJob, if_pos rfl, hm]
      rfl
    refine ⟨rfl, hstat, ?_, ?_, ?_⟩
    · rw [errorOf_updateQueuePositions, errorOf, mlookup_updateJob, if_pos rfl, hm]
      rfl
    · show jobId ∉ s.pendingQueue.erase jobId
      intro hc
      exact ((hInv.pendingNodup.mem_erase_iff.mp hc).1) rfl
    · exact hsecond _ hstat
  · have heq : cancelJob s jobId =
        (true,
          { s with
            jobs := updateJob s.jobs jobId (fun j =>
              { j with status := .failed, error := some cancelMessage,
                       updatedAt := s.now }) }) := by
      unfold cancelJob
      simp only [hm]
      rw [if_pos hst, if_neg hmem]
    rw [heq]
    have hstat : statusOf ({ s with
        jobs := updateJob s.jobs jobId (fun j =>
          { j with status := .failed, error := some cancelMessage,
                   updatedAt := s.now }) } : QueueState).jobs jobId =
        some JobStatus.failed := by
      rw [statusOf, mlookup_updateJob, if_pos rfl, hm]
      rfl
    refine ⟨rfl, hstat, ?_, hmem, ?_⟩
    · rw [errorOf, mlookup_updateJob, if_pos rfl, hm]
      rfl
    · exact hsecond _ hstat

/-- C9 witness: the amended cancellation semantics at `st1`, job 0. -/
theorem c9_witness :
    (cancelJob st1 0).1 = true ∧
    statusOf (cancelJob st1 0).2.jobs 0 = some JobStatus.failed ∧
    errorOf (cancelJob st1 0).2.jobs 0 = some (some cancelMessage) ∧
    (0 : Nat) ∉ (cancelJob st1 0).2.pendingQueue ∧
    cancelJob (cancelJob st1 0).2 0 = (false, (cancelJob st1 0).2) :=
  (c9_cancel_semantics.2 st1 0 _ reachable_st1 rfl).1 (by decide)

/-! ### C3 -/

/-- C3: in every reachable state at most `maxConcurrentJobs` (3) jobs are in
the in-flight set; `processJob`'s guard makes starting a job whose id is
already in flight a no-op; and a dispatch pass selects at most
`ceiling - inflight` pending jobs. -/
theorem c3_inflight_bounded :
    (∀ s, Reachable s → s.processingJobs.length ≤ maxConcurrentJobs) ∧
    (∀ s jobId, jobId ∈ s.processingJobs → processJobStart s jobId = s) ∧
    (∀ s : QueueState, ((sortByLt (jobLt s.jobs) s.pendingQueue).take
        (maxConcurrentJobs - s.processingJobs.length)).length ≤
        maxConcurrentJobs - s.processingJobs.length) := by
  refine ⟨?_, ?_, ?_⟩
  · intro s h
    exact (reachable_inv s h).processingBound
  · intro s jobId h
    rw [processJobStart, if_pos h]
  · intro s
    rw [List.length_take]
    exact Nat.min_le_left _ _

/-- C3 witness: the bound instantiated at the state with job 0 in flight, and
the no-op guard at that state. -/
theorem c3_witness :
    stProc.processingJobs.length ≤ maxConcurrentJobs ∧
    processJobStart stProc 0 = stProc :=
  ⟨c3_inflight_bounded.1 stProc reachable_stProc,
   c3_inflight_bounded.2.1 stProc 0 (by decide)⟩

/-! ### C4 -/

/-- C4: `isRetryableError` scans the non-retryable patterns before the
retryable ones — a message matching any non-retryable pattern is classified
non-retryable no matter what else it contains — and every message matching no
non-retryable pattern (whether it matches a retryable pattern or nothing at
all) is classified retryable.  In particular "insufficient funds for gas"
also contains the retryable substring "gas" yet is non-retryable, so the job
in `stDead` was dead-lettered with status `failed` after a single attempt. -/
theorem c4_classifier_priority_order :
    (∀ message,
      (nonRetryablePatterns.any (fun p => containsSubStr (lowerStr message) p)) = true →
      isRetryableError message = false) ∧
    (∀ message,
      (nonRetryablePatterns.any (fun p => containsSubStr (lowerStr message) p)) = false →
      isRetryableError message = true) ∧
    isRetryableError "insufficient funds for gas" = false ∧
    (retryablePatterns.any
      (fun p => containsSubStr (lowerStr "insufficient funds for gas") p)) = true ∧
    ((mlookup stDead.deadLetterQueue 0).map (fun j => (j.status, j.attempts))) =
      some (JobStatus.failed, 1) := by
  refine ⟨?_, ?_, by decide, by decide, by decide⟩
  · intro message h
    simp [isRetryableError, h]
  · intro message h
    simp [isRetryableError, h]

/-- C4 witness: the two classifier clauses instantiated at concrete
messages. -/
theorem c4_witness :
    isRetryableError "insufficient funds for gas" = false ∧
    isRetryableError "some entirely unknown failure" = true :=
  ⟨c4_classifier_priority_order.1 "insufficient funds for gas" (by decide),
   c4_classifier_priority_order.2.1 "some entirely unknown failure" (by decide)⟩

/-! ### C7 -/

/-- C7: the dead-letter store never exceeds its capacity of 100 in any
reachable state; inserting below capacity appends the new entry and evicts
nothing; inserting at capacity evicts exactly the single oldest entry (the
head of the insertion-ordered store) and nothing else, leaving the length at
capacity. -/
theorem c7_deadletter_capacity_fifo :
    (∀ s, Reachable s → s.deadLetterQueue.length ≤ deadLetterCapacity) ∧
    (∀ dl job now, mlookup dl job.id = none → (dl.map Prod.fst).Nodup →
      (dl.length < deadLetterCapacity →
        moveToDeadLetterQueue dl job now = dl ++ [(job.id, deadEntry job now)]) ∧
      (dl.length = deadLetterCapacity →
        moveToDeadLetterQueue dl job now = dl.tail ++ [(job.id, deadEntry job now)] ∧
        (moveToDeadLetterQueue dl job now).length = deadLetterCapacity)) := by
  refine ⟨?_, ?_⟩
  · intro s h
    exact (reachable_inv s h).dlBound
  · intro dl job now hfresh hnd
    refine ⟨fun h => moveToDeadLetterQueue_small dl job now hfresh h, fun h => ?_⟩
    refine ⟨moveToDeadLetterQueue_full dl job now hfresh hnd h, ?_⟩
    rw [moveToDeadLetterQueue_full dl job now hfresh hnd h]
    cases dl with
    | nil => simp [deadLetterCapacity] at h
    | cons p rest =>
      simp at h ⊢
      omega

/-- C7 witness: the capacity bound at `stDead`, and the no-eviction insertion
at an empty store. -/
theorem c7_witness :
    stDead.deadLetterQueue.length ≤ deadLetterCapacity ∧
    moveToDeadLetterQueue [] (mkJob initState jdP2) 5 =
      [] ++ [((mkJob initState jdP2).id, deadEntry (mkJob initState jdP2) 5)] :=
  ⟨c7_deadletter_capacity_fifo.1 stDead reachable_stDead,
   (c7_deadletter_capacity_fifo.2 [] (mkJob initState jdP2) 5 rfl (by decide)).1
     (by decide)⟩

/-! ### C8 -/

/-- C8: the retry branch computes `delay = min(1000 * 2 ^ attempts, 30000) +
jitter`; for any jitter draw below 1000 the delay lies within 1000ms above the
base delay; and for a jitter draw of zero the base delay is monotonically
non-decreasing in the attempts counter and never exceeds the 30000ms cap. -/
theorem c8_backoff_formula_monotone :
    (∀ attempts jitter, retryDelay attempts jitter =
      min (1000 * 2 ^ attempts) 30000 + jitter) ∧
    (∀ jitter, jitter < 1000 → ∀ attempts,
      backoffBaseDelay attempts ≤ retryDelay attempts jitter ∧
      retryDelay attempts jitter < backoffBaseDelay attempts + 1000) ∧
    (∀ a b, a ≤ b → backoffBaseDelay a ≤ backoffBaseDelay b) ∧
    (∀ a, backoffBaseDelay a ≤ 30000) := by
  refine ⟨fun _ _ => rfl, ?_, ?_, ?_⟩
  · intro jitter hj attempts
    unfold retryDelay
    omega
  · intro a b hab
    unfold backoffBaseDelay
    have h1 : 2 ^ a ≤ 2 ^ b := Nat.pow_le_pow_right (by norm_num) hab
    have h2 : 1000 * 2 ^ a ≤ 1000 * 2 ^ b := Nat.mul_le_mul_left _ h1
    omega
  · intro a
    unfold backoffBaseDelay
    exact Nat.min_le_right _ _

/-- C8 witness: the formula at `attempts = 2`, `jitter = 500`, and
monotonicity between attempts 1 and 4. -/
theorem c8_witness :
    retryDelay 2 500 = min (1000 * 2 ^ 2) 30000 + 500 ∧
    backoffBaseDelay 1 ≤ backoffBaseDelay 4 :=
  ⟨c8_backoff_formula_monotone.1 2 500,
   c8_backoff_formula_monotone.2.2.1 1 4 (by decide)⟩

/-! ### C10 -/

/-- C10: `getJob` consults the main job store first and falls back to the
dead-letter store only when the id is absent there; the retention sweeper
never touches the dead-letter store, so an id held there still resolves after
a cleanup; and while an id exists in both structures the main-store record
wins. -/
theorem c10_getJob_lookup_order :
    (∀ s jobId j, mlookup s.jobs jobId = some j → getJob s jobId = some j) ∧
    (∀ s jobId, mlookup s.jobs jobId = none →
      getJob s jobId = mlookup s.deadLetterQueue jobId) ∧
    (∀ s, (cleanupOldJobs s).deadLetterQueue = s.deadLetterQueue) ∧
    (∀ s jobId j, mlookup s.deadLetterQueue jobId = some j →
      (getJob (cleanupOldJobs s) jobId).isSome = true) := by
  refine ⟨?_, ?_, fun s => rfl, ?_⟩
  · intro s jobId j h
    unfold getJob
    rw [h]
  · intro s jobId h
    unfold getJob
    rw [h]
  · intro s jobId j h
    unfold getJob
    cases hm : mlookup (cleanupOldJobs s).jobs jobId with
    | some v => rfl
    | none =>
      have hdl : (cleanupOldJobs s).deadLetterQueue = s.deadLetterQueue := rfl
      rw [hdl, h]
      rfl

/-- C10 witness: in `stDead` the id 0 is in both stores and `getJob` returns
a record, also after a cleanup sweep. -/
theorem c10_witness :
    (getJob stDead 0).isSome = true ∧
    (getJob (cleanupOldJobs stDead) 0).isSome = true := by
  constructor
  · rw [c10_getJob_lookup_order.1 stDead 0 _ rfl]
    rfl
  · exact c10_getJob_lookup_order.2.2.2 stDead 0 _ rfl

/-! ### C2 -/

/-- C2: in every reachable state, every job record (main store and dead-letter
store) submitted with `maxAttempts ≥ 1` has `attempts ≤ maxAttempts`, and a
dead-lettered id is never present in the pending queue (never automatically
re-enqueued); the attempts counter is incremented exactly once per
dispatcher-initiated start (`processJobStart` applies `startJobF`, which adds
one) while the outcome handlers (`failJob`, `completeJob`) and the retry
re-entry leave every job's attempts unchanged; and a job that fails while
`attempts` has reached `maxAttempts` is stored in the dead-letter queue with
status `failed`, its attempts unchanged, and is not in the pending queue. -/
theorem c2_attempts_bounded_deadletter_final :
    (∀ s, Reachable s →
      (∀ k j, mlookup s.jobs k = some j → 1 ≤ j.maxAttempts →
        j.attempts ≤ j.maxAttempts) ∧
      (∀ k j, mlookup s.deadLetterQueue k = some j →
        (1 ≤ j.maxAttempts → j.attempts ≤ j.maxAttempts) ∧ k ∉ s.pendingQueue)) ∧
    (∀ s jobId, jobId ∉ s.processingJobs →
      mlookup (processJobStart s jobId).jobs jobId =
        (mlookup s.jobs jobId).map (startJobF s.now)) ∧
    (∀ now j, (startJobF now j).attempts = j.attempts + 1) ∧
    (∀ s jobId message k,
      (mlookup (failJob s jobId message).jobs k).map QueueJob.attempts =
        (mlookup s.jobs k).map QueueJob.attempts) ∧
    (∀ s jobId txHash k,
      (mlookup (completeJob s jobId txHash).jobs k).map QueueJob.attempts =
        (mlookup s.jobs k).map QueueJob.attempts) ∧
    (∀ s jobId k,
      (mlookup (retryReentry s jobId).jobs k).map QueueJob.attempts =
        (mlookup s.jobs k).map QueueJob.attempts) ∧
    (∀ s jobId message job0, Reachable s → jobId ∈ s.processingJobs →
      mlookup s.jobs jobId = some job0 → job0.maxAttempts ≤ job0.attempts →
      ∃ j, mlookup (failJob s jobId message).deadLetterQueue jobId = some j ∧
        j.status = JobStatus.failed ∧ j.attempts = job0.attempts ∧
        jobId ∉ (failJob s jobId message).pendingQueue) := by
  refine ⟨?_, ?_, fun _ _ => rfl, ?_, ?_, ?_, ?_⟩
  · intro s hreach
    have hInv := reachable_inv s hreach
    constructor
    · intro k j hm hmax
      exact ((hInv.jobsOK k j hm).2.2 hmax).1
    · intro k j hm
      obtain ⟨_, _, _, h4, h5, _, _⟩ := hInv.dlOK k j hm
      exact ⟨fun hmax => (h4 hmax).1, h5⟩
  · intro s jobId h
    rw [processJobStart, if_neg h]
    show mlookup (updateJob s.jobs jobId (startJobF s.now)) jobId = _
    rw [mlookup_updateJob, if_pos rfl]
  · intro s jobId message k
    cases hm : mlookup s.jobs jobId with
    | none =>
      have heq : failJob s jobId message = s := by
        unfold failJob
        rw [hm]
      rw [heq]
    | some job0 =>
      by_cases hcond :
          (!(isRetryableError message) || decide (job0.maxAttempts ≤ job0.attempts)) = true
      · have heq : (failJob s jobId message).jobs =
            updateJob s.jobs jobId (fun j =>
              { j with error := some (categorizeError message), status := .failed,
                       updatedAt := s.now }) := by
          unfold failJob
          simp only [hm]
          rw [if_pos hcond]
        rw [heq]
        apply attemptsMap_updateJob
        exact fun j => rfl
      · have heq : (failJob s jobId message).jobs =
            updateJob s.jobs jobId (fun j =>
              { j with error := some (categorizeError message), status := .retrying,
                       updatedAt := s.now }) := by
          unfold failJob
          simp only [hm]
          rw [if_neg hcond]
        rw [heq]
        apply attemptsMap_updateJob
        exact fun j => rfl
  · intro s jobId txHash k
    show (mlookup (updateJob s.jobs jobId (fun j =>
        { j with status := .completed, transactionHash := some txHash,
                 completedAt := some s.now, updatedAt := s.now })) k).map QueueJob.attempts =
      (mlookup s.jobs k).map QueueJob.attempts
    apply attemptsMap_updateJob
    exact fun j => rfl
  · intro s jobId k
    cases hm : mlookup s.jobs jobId with
    | none =>
      have heq : retryReentry s jobId = s := by
        unfold retryReentry
        rw [hm]
      rw [heq]
    | some job =>
      by_cases hst : job.status = JobStatus.retrying
      · have heq : retryReentry s jobId =
            updateQueuePositions
              { s with
                jobs := updateJob s.jobs jobId (fun j => { j with status := .pending }),
                pendingQueue := s.pendingQueue ++ [jobId] } := by
          unfold retryReentry
          simp only [hm]
          rw [if_pos hst]
        rw [heq, attemptsMap_updateQueuePositions]
        show (mlookup (updateJob s.jobs jobId (fun j =>
            { j with status := .pending })) k).map QueueJob.attempts =
          (mlookup s.jobs k).map QueueJob.attempts
        apply attemptsMap_updateJob
        exact fun j => rfl
      · have heq : retryReentry s jobId = s := by
          unfold retryReentry
          simp only [hm]
          rw [if_neg hst]
        rw [heq]
  · intro s jobId message job0 hreach hin hm hexh
    have hInv := reachable_inv s hreach
    obtain ⟨hfr0, hid0, hat0⟩ := hInv.jobsOK jobId job0 hm
    subst hid0
    have hjid : job0.id ∉ s.pendingQueue := fun hc =>
      pending_not_processing s hInv.pendingStatus hInv.processingStatus job0.id hc hin
    have hdlfresh : mlookup s.deadLetterQueue job0.id = none := by
      cases hdl : mlookup s.deadLetterQueue job0.id with
      | none => rfl
      | some j2 =>
        obtain ⟨_, _, _, _, _, h6, _⟩ := hInv.dlOK job0.id j2 hdl
        exact absurd hin h6
    have hcond :
        (!(isRetryableError message) || decide (job0.maxAttempts ≤ job0.attempts)) = true := by
      simp [hexh]
    have heq : failJob s job0.id message =
        { s with
          jobs := updateJob s.jobs job0.id (fun j =>
            { j with error := some (categorizeError message), status := .failed,
                     updatedAt := s.now }),
          deadLetterQueue := moveToDeadLetterQueue s.deadLetterQueue
            { job0 with error := some (categorizeError message), status := .failed,
                        updatedAt := s.now } s.now,
          processingJobs := s.processingJobs.erase job0.id } := by
      unfold failJob
      simp only [hm]
      rw [if_pos hcond]
    rw [heq]
    have hself := mlookup_moveToDeadLetterQueue_self s.deadLetterQueue
      { job0 with error := some (categorizeError message),
                  status := JobStatus.failed, updatedAt := s.now } s.now
      hdlfresh hInv.dlKeysNodup hInv.dlBound
    exact ⟨_, hself, rfl, rfl, hjid⟩

/-- C2 witness: in `stDead`, the dead-lettered id 0 is not in the pending
queue, and the failure outcome left its attempts counter unchanged. -/
theorem c2_witness :
    (0 : Nat) ∉ stDead.pendingQueue ∧
    (mlookup stDead.jobs 0).map QueueJob.attempts =
      (mlookup stProc.jobs 0).map QueueJob.attempts := by
  constructor
  · exact ((c2_attempts_bounded_deadletter_final.1 stDead reachable_stDead).2 0 _ rfl).2
  · exact c2_attempts_bounded_deadletter_final.2.2.2.1 stProc 0
      "insufficient funds for gas" 0

end W3Faucet
